import Mathlib

/-!
Verification of the dbscan clustering core (Rust sources under
src/rust_dbscan/src/cluster/): distance metric, K-D tree spatial index,
and the DBSCAN engine.

Modelling conventions:
* The Rust code computes with f64.  Every f64 value occurring in the
  program is a rational number, so we embed coordinates and all
  arithmetic as exact rationals (the standard idealisation that ignores
  rounding; every concrete margin used in counterexamples below is many
  orders of magnitude above f64 rounding error).
* The constant std::f64::consts::PI is the f64 nearest to the real
  number pi; we model it by its decimal value with 16 significant
  digits.
* The library cosine .cos() used by distance_spherical is modelled by
  Real.cos, and .sqrt() by Real.sqrt.
* The panic in fast_sine is modelled by an Option result (none = panic).
  The clustering pipeline only ever evaluates the trig approximation at
  arguments produced from latitude averages; fastCosVal below is the
  total function computing the value of the non-panicking executions,
  and the lemma fastCos_eq_val identifies the two on the non-panicking
  domain.
-/

namespace DbscanFilter

/-- A geographic point, stored as (longitude, latitude); field 0 of the
Rust array is the longitude, field 1 the latitude. -/
structure Point where
  lon : ℚ
  lat : ℚ
deriving DecidableEq, Repr, Inhabited

/-- Coordinate access mirroring the Rust indexing p.0[d]. -/
def Point.coord (p : Point) (d : ℕ) : ℚ :=
  if d = 0 then p.lon else p.lat

/-- The f64 constant std::f64::consts::PI, as an exact rational (decimal
value with 16 significant digits). -/
def PI : ℚ := 3141592653589793 / 1000000000000000

/-- Coefficient to translate from degrees to radians. -/
def DEGREE_RAD : ℚ := PI / 180

/-- Earth radius in kilometers. -/
def EARTH_R : ℚ := 6371

/-- The value computed by fast_sine when its range check passes: the
parabola approximation with constants B = 4/PI, C = -4/PI^2, P = 0.225. -/
def fastSineVal (x : ℚ) : ℚ :=
  let b : ℚ := 4 / PI
  let c : ℚ := -4 / (PI * PI)
  let p : ℚ := 225 / 1000
  let y : ℚ := b * x + c * x * |x|
  p * (y * |y| - y) + y

/-- The function fast_sine: panics (none) when x is outside [-PI, PI],
otherwise returns the parabola approximation. -/
def fastSine (x : ℚ) : Option ℚ :=
  if -PI ≤ x ∧ x ≤ PI then some (fastSineVal x) else none

/-- The while loop of fast_cos: while x > PI, subtract 2 PI.  Written in
closed form so the function evaluates by kernel reduction; the lemma
normPi_loop below proves that it satisfies exactly the recurrence of the
source loop. -/
def normPi (x : ℚ) : ℚ :=
  if x ≤ PI then x else x - 2 * PI * (⌈(x - PI) / (2 * PI)⌉ : ℚ)

/-- The function fast_cos: normalize x + PI/2 by the subtraction loop,
then delegate to fast_sine (whose range check may panic). -/
def fastCos (x : ℚ) : Option ℚ :=
  fastSine (normPi (x + PI / 2))

/-- Value of fast_cos on executions that do not panic: the parabola
approximation applied to the normalized argument. -/
def fastCosVal (x : ℚ) : ℚ :=
  fastSineVal (normPi (x + PI / 2))

/-- The function distance_spherical_fast: squared-distance-like quantity
without sqrt and without normalization to Earth radius/radians.  Uses
the non-panicking value of fast_cos (see the header comment; every use
in the clustering pipeline keeps the trig argument in the safe domain). -/
def distanceSphericalFast (p1 p2 : Point) : ℚ :=
  let v1 : ℚ := p1.lat - p2.lat
  let v2 : ℚ := (p1.lon - p2.lon) * fastCosVal ((p1.lat + p2.lat) / 2 * DEGREE_RAD)
  v1 * v1 + v2 * v2

/-- The method Point.sq_dist delegates to distance_spherical_fast. -/
def Point.sqDist (a b : Point) : ℚ :=
  distanceSphericalFast a b

/-- The function distance_spherical: law-of-cosines-style planar
approximation, in kilometers.  The library cosine and square root are
modelled by Real.cos and Real.sqrt. -/
noncomputable def distanceSpherical (p1 p2 : Point) : ℝ :=
  let v1 : ℝ := ((p1.lat - p2.lat : ℚ) : ℝ) * (DEGREE_RAD : ℝ)
  let w1 : ℝ := v1 * v1
  let v2 : ℝ := ((p1.lon - p2.lon : ℚ) : ℝ) * (DEGREE_RAD : ℝ) *
    Real.cos ((((p1.lat + p2.lat) / 2 : ℚ) : ℝ) * (DEGREE_RAD : ℝ))
  let w2 : ℝ := v2 * v2
  (EARTH_R : ℝ) * Real.sqrt (w1 + w2)

theorem PI_pos : 0 < PI := by norm_num [PI]

/-- The closed form of normPi satisfies the recurrence of the source
while loop: one iteration subtracts 2 PI when x exceeds PI, and the loop
exits otherwise. -/
theorem normPi_loop (x : ℚ) :
    normPi x = if PI < x then normPi (x - 2 * PI) else x := by
  by_cases h : x ≤ PI
  · simp [normPi, h, not_lt.mpr h]
  · push_neg at h
    have h2pi : (0 : ℚ) < 2 * PI := by norm_num [PI]
    rw [normPi, if_neg (not_le.mpr h), if_pos h, normPi]
    by_cases h3 : x - 2 * PI ≤ PI
    · rw [if_pos h3]
      have hk : ⌈(x - PI) / (2 * PI)⌉ = 1 := by
        rw [Int.ceil_eq_iff]
        constructor
        · push_cast
          have : (0 : ℚ) < x - PI := by linarith
          have : (0 : ℚ) < (x - PI) / (2 * PI) := by positivity
          linarith
        · push_cast
          rw [div_le_one h2pi]
          linarith
      rw [hk]
      push_cast
      ring
    · rw [if_neg h3]
      push_neg at h3
      have : (x - 2 * PI - PI) / (2 * PI) = (x - PI) / (2 * PI) - 1 := by
        field_simp
        ring
      rw [this, Int.ceil_sub_one]
      push_cast
      ring

/-! ### K-D tree (kdtree.rs)

The Rust Option<Box<KDTreeNode>> is encoded by the nil constructor.
The PreSorted struct clones the point list; since the list is never
modified we pass it as an explicit parameter instead. -/

/-- A node of the K-D tree: point index, duplicate bucket, split
dimension and the two children (nil encodes the absent child). -/
inductive KDT where
  | nil : KDT
  | node (pointId : ℕ) (equalIds : List ℕ) (split : ℕ) (left right : KDT) : KDT
deriving DecidableEq, Repr

/-- Stable insertion of an index into a list sorted by the boolean
comparator le. -/
def insertLe (le : ℕ → ℕ → Bool) (a : ℕ) : List ℕ → List ℕ
  | [] => [a]
  | b :: bs => if le a b then a :: b :: bs else b :: insertLe le a bs

/-- Stable insertion sort by the boolean comparator le.  The Rust code
uses the standard library stable sort_by; a stable sort is uniquely
determined by the comparator, so any stable sorting algorithm is an
exact model.  Insertion sort is used because it is structurally
recursive and therefore evaluates by kernel reduction. -/
def sortLe (le : ℕ → ℕ → Bool) (l : List ℕ) : List ℕ :=
  l.foldr (insertLe le) []

/-- The comparator of pre_sort on dimension i: order by coordinate i,
break ties by the other coordinate (as a non-strict less-or-equal,
matching the stable ordering induced by the Ordering comparator). -/
def dimLe (points : List Point) (i : ℕ) (a b : ℕ) : Bool :=
  let pa := points.getD a default
  let pb := points.getD b default
  if pa.coord i = pb.coord i then
    decide (pa.coord (1 - i) ≤ pb.coord (1 - i))
  else
    decide (pa.coord i < pb.coord i)

/-- Nodes pre-sorted on each dimension.  Field curD corresponds to the
Rust cur[d]. -/
structure PreSorted where
  cur0 : List ℕ
  cur1 : List ℕ
deriving Repr

/-- Access cur[d]. -/
def PreSorted.cur (ps : PreSorted) (d : ℕ) : List ℕ :=
  if d = 0 then ps.cur0 else ps.cur1

/-- Build a PreSorted from its two lists, indexed like the Rust cur
array: component dim receives first, the other component second. -/
def mkPreSorted (dim : ℕ) (atDim atOther : List ℕ) : PreSorted :=
  if dim = 0 then ⟨atDim, atOther⟩ else ⟨atOther, atDim⟩

/-- The function pre_sort: sort all indices independently on each
dimension. -/
def preSort (points : List Point) : PreSorted :=
  ⟨sortLe (dimLe points 0) (List.range points.length),
   sortLe (dimLe points 1) (List.range points.length)⟩

/-- The downward scan of split_med looking for the start of the run of
values equal (on the split dimension) to the value at the median
position: while m > 0 and the value at m - 1 equals the value at m,
decrement m. -/
def medDown (points : List Point) (l : List ℕ) (dim : ℕ) : ℕ → ℕ
  | 0 => 0
  | m + 1 =>
    if (points.getD (l.getD m 0) default).coord dim
        = (points.getD (l.getD (m + 1) 0) default).coord dim then
      medDown points l dim m
    else
      m + 1

/-- The method split_med: median index on the split dimension, duplicate
bucket, and the two PreSorted halves. -/
def splitMed (points : List Point) (ps : PreSorted) (dim : ℕ) :
    ℕ × List ℕ × PreSorted × PreSorted :=
  let l := ps.cur dim
  let m := medDown points l dim (l.length / 2)
  let med := l.getD m 0
  let medPt := points.getD med default
  -- the upward scan collecting the contiguous run of full duplicates of
  -- the median point (positions m+1 .. mh in the Rust code)
  let equal := (l.drop (m + 1)).takeWhile (fun n => points.getD n default = medPt)
  let mh := m + equal.length
  let pivot := medPt.coord dim
  let keep : ℕ → Bool := fun n => n ≠ med && !(equal.contains n)
  let other := ps.cur (1 - dim)
  let leftO := other.filter (fun n => keep n && decide ((points.getD n default).coord dim < pivot))
  let rightO := other.filter (fun n => keep n && !(decide ((points.getD n default).coord dim < pivot)))
  (med, equal, mkPreSorted dim (l.take m) leftO, mkPreSorted dim (l.drop (mh + 1)) rightO)

/-- The function build_tree, with explicit fuel so that the definition
is structurally recursive.  Each recursive call strictly decreases
cur0.length + cur1.length, so any fuel above that sum makes the fuel
check unreachable (newKdTree below passes such a fuel). -/
def buildTree (points : List Point) : ℕ → ℕ → PreSorted → KDT
  | 0, _, _ => .nil
  | fuel + 1, depth, ps =>
    let split := depth % 2
    match ps.cur split with
    | [] => .nil
    | [i] => .node i [] split .nil .nil
    | _ :: _ :: _ =>
      let r := splitMed points ps split
      .node r.1 r.2.1 split
        (buildTree points fuel (depth + 1) r.2.2.1)
        (buildTree points fuel (depth + 1) r.2.2.2)

/-- The function new_kd_tree: build the tree over the given points (nil
for an empty list). -/
def newKdTree (points : List Point) : KDT :=
  if points.isEmpty then .nil
  else buildTree points (2 * points.length + 1) 0 (preSort points)

/-- Construct a point whose coordinate on dimension split is sVal and
whose other coordinate is oVal, mirroring the two coordinate
assignments building p1 and p2 in in_range_recursive. -/
def mkPt (split : ℕ) (sVal oVal : ℚ) : Point :=
  if split = 0 then ⟨sVal, oVal⟩ else ⟨oVal, sVal⟩

/-- The method in_range_recursive: recurse into the near side, and only
when the splitting-plane bound is within range test the node point
(emitting it and its duplicate bucket) and recurse into the far side. -/
def inRangeRec (points : List Point) (pt : Point) (r : ℚ) :
    KDT → List ℕ → List ℕ
  | .nil, nodes => nodes
  | .node pid eqIds split l rgt, nodes =>
    let npt := points.getD pid default
    let diff := pt.coord split - npt.coord split
    let avg := (pt.coord (1 - split) + npt.coord (1 - split)) / 2
    let p1 := mkPt split (pt.coord split) avg
    let p2 := mkPt split (npt.coord split) avg
    let dist := p1.sqDist p2
    -- the two branches spell out the (thisSide, otherSide) selection of
    -- the source so that the recursion is structural
    if diff < 0 then
      let nodes1 := inRangeRec points pt r l nodes
      if dist ≤ r * r then
        inRangeRec points pt r rgt
          (if npt.sqDist pt < r * r then (nodes1 ++ [pid]) ++ eqIds else nodes1)
      else
        nodes1
    else
      let nodes1 := inRangeRec points pt r rgt nodes
      if dist ≤ r * r then
        inRangeRec points pt r l
          (if npt.sqDist pt < r * r then (nodes1 ++ [pid]) ++ eqIds else nodes1)
      else
        nodes1

/-- The method in_range: negative radius returns the accumulator
unchanged, otherwise run the recursive search from the root. -/
def inRange (points : List Point) (t : KDT) (pt : Point) (dist : ℚ)
    (nodes : List ℕ) : List ℕ :=
  if dist < 0 then nodes else inRangeRec points pt dist t nodes

/-- The function region_query: brute-force scan collecting, in index
order, every index whose fast squared distance to p is below eps^2. -/
def regionQuery (points : List Point) (p : Point) (eps : ℚ) : List ℕ :=
  (List.range points.length).filter
    (fun i => decide ((points.getD i default).sqDist p < eps * eps))

/-! ### DBSCAN engine (dbscan.rs)

Mutable state is threaded explicitly.  The boolean arrays visited,
members and neighbor_unique are lists of booleans of length
points.length; reads out of range yield false and writes out of range
are no-ops, exactly like the source where indices are always in range.
The inner frontier drain (a while loop over a growing vector) is given
explicit fuel; every frontier push flips one marker bit from false to
true, so the number of iterations is bounded by the initial frontier
length plus the number of points, and the fuel passed by dbScan is
strictly larger than that bound, making the fuel check unreachable. -/

/-- A cluster: id and member point indices. -/
structure Cluster where
  c : ℕ
  points : List ℕ
deriving DecidableEq, Repr

/-- The engine state outside the expansion loop. -/
structure DBState where
  visited : List Bool
  members : List Bool
  clusters : List Cluster
  noise : List ℕ
  c : ℕ
deriving Repr

/-- The for loop over more_neighbors inside the frontier drain: push
every index whose neighbor_unique bit is unset, setting the bit. -/
def pushNew (fm : List ℕ × List Bool) (more : List ℕ) : List ℕ × List Bool :=
  more.foldl
    (fun fm p => if fm.2.getD p false then fm else (fm.1 ++ [p], fm.2.set p true))
    fm

/-- First half of one frontier-drain iteration at cursor point k: the
visitation check, the neighbor query of an unvisited point, and the
frontier extension when the neighbor count reaches the density
threshold.  Returns the new frontier, marker and visited array. -/
def expandStep1 (points : List Point) (tree : KDT) (eps : ℚ) (minPts : ℕ)
    (k : ℕ) (frontier : List ℕ) (marker : List Bool) (visited : List Bool) :
    List ℕ × List Bool × List Bool :=
  if visited.getD k false then (frontier, marker, visited)
  else
    let moreNeighbors := inRange points tree (points.getD k default) eps []
    let visited1 := visited.set k true
    if minPts ≤ moreNeighbors.length then
      let fm := pushNew (frontier, marker) moreNeighbors
      (fm.1, fm.2, visited1)
    else
      (frontier, marker, visited1)

/-- Second half of one frontier-drain iteration at cursor point k: the
membership guard appending k to the current cluster when it is not yet
a member of any cluster. -/
def expandStep2 (k : ℕ) (members : List Bool) (cluster : Cluster) :
    List Bool × Cluster :=
  if members.getD k false then (members, cluster)
  else (members.set k true, { cluster with points := cluster.points ++ [k] })

/-- One drain of the growing frontier (the while loop inside db_scan),
with explicit fuel.  Arguments: fuel, cursor j, frontier, marker,
visited, members, current cluster; returns the final visited, members
and cluster. -/
def expand (points : List Point) (tree : KDT) (eps : ℚ) (minPts : ℕ) :
    ℕ → ℕ → List ℕ → List Bool → List Bool → List Bool → Cluster →
    List Bool × List Bool × Cluster
  | 0, _, _, _, visited, members, cluster => (visited, members, cluster)
  | fuel + 1, j, frontier, marker, visited, members, cluster =>
    if j < frontier.length then
      let k := frontier.getD j 0
      let s1 := expandStep1 points tree eps minPts k frontier marker visited
      let s2 := expandStep2 k members cluster
      expand points tree eps minPts fuel (j + 1) s1.1 s1.2.1 s1.2.2 s2.1 s2.2
    else
      (visited, members, cluster)

/-- The body of the outer for loop of db_scan for point index i. -/
def dbScanStep (points : List Point) (tree : KDT) (eps : ℚ) (minPts : ℕ)
    (s : DBState) (i : ℕ) : DBState :=
  if s.visited.getD i false then s
  else
    let visited := s.visited.set i true
    let neighborPts := inRange points tree (points.getD i default) eps []
    if neighborPts.length < minPts then
      { s with visited := visited, noise := s.noise ++ [i] }
    else
      let cluster : Cluster := { c := s.c, points := [i] }
      let members := s.members.set i true
      let marker := neighborPts.foldl (fun m j => m.set j true)
        (List.replicate points.length false)
      let r := expand points tree eps minPts
        (neighborPts.length + points.length + 1) 0 neighborPts marker
        visited members cluster
      { visited := r.1, members := r.2.1,
        clusters := s.clusters ++ [r.2.2], noise := s.noise, c := s.c + 1 }

/-- The function db_scan: returns the cluster list and the noise list. -/
def dbScan (points : List Point) (eps : ℚ) (minPts : ℕ) :
    List Cluster × List ℕ :=
  let tree := newKdTree points
  let eps1 := eps / EARTH_R / DEGREE_RAD
  let init : DBState :=
    { visited := List.replicate points.length false,
      members := List.replicate points.length false,
      clusters := [], noise := [], c := 0 }
  let final := (List.range points.length).foldl
    (dbScanStep points tree eps1 minPts) init
  (final.clusters, final.noise)

/-- The method centroid_and_bounds: none models the panic on an empty
cluster; otherwise returns (center, min, max). -/
def centroidAndBounds (cl : Cluster) (points : List Point) :
    Option (Point × Point × Point) :=
  if cl.points = [] then none
  else
    let step : Point × Point × Point → ℕ → Point × Point × Point :=
      fun acc i =>
        let pt := points.getD i default
        let mn := acc.2.1
        let mx := acc.2.2
        let ctr := acc.1
        (⟨ctr.lon + pt.lon, ctr.lat + pt.lat⟩,
         ⟨if pt.lon < mn.lon then pt.lon else mn.lon,
          if pt.lat < mn.lat then pt.lat else mn.lat⟩,
         ⟨if mx.lon < pt.lon then pt.lon else mx.lon,
          if mx.lat < pt.lat then pt.lat else mx.lat⟩)
    let r := cl.points.foldl step (⟨0, 0⟩, ⟨180, 90⟩, ⟨-180, -90⟩)
    some (⟨r.1.lon / cl.points.length, r.1.lat / cl.points.length⟩, r.2.1, r.2.2)

/-! ### Concrete inputs used by counterexamples and witnesses -/

/-- A radius of exactly one internal unit: dividing this eps by
EARTH_R and DEGREE_RAD inside dbScan gives exactly 1. -/
def epsOne : ℚ := EARTH_R * DEGREE_RAD

/-- Two points exhibiting the pruning unsoundness of the K-D tree range
query under the latitude-dependent fast metric: the root point sits at
latitude -90, its left child at latitude 89; querying from (2, 89) the
splitting-plane bound is evaluated at average latitude -1/2 (cosine
close to 1) while the true distance to the child is scaled by the
cosine at latitude 89 (close to 0), so the child is in range but the
subtree holding it is pruned. -/
def ptsPrune : List Point := [⟨1/2, 89⟩, ⟨1, -90⟩]

/-- Three collinear points at latitude 0 spaced 0.9 internal units
apart; with minPts = 3 the first point is recorded as noise and then
absorbed into the cluster seeded by the middle point. -/
def ptsBorder : List Point := [⟨0, 0⟩, ⟨9/10, 0⟩, ⟨9/5, 0⟩]

/-- Thirteen points (all latitudes small, so the fast metric is within
0.2 percent of Euclidean): three satellite groups of four points each
form clusters 0, 1, 2 whose border points 0, 1 and 2 were already
recorded as noise; point 12 at the origin then has exactly minPts = 4
neighbors (itself and the three borders), seeds cluster 3, but all its
other neighbors are already members, so cluster 3 has a single
member. -/
def ptsSmall : List Point :=
  [⟨-9/10, 0⟩, ⟨9/10, 0⟩, ⟨0, 9/10⟩,
   ⟨-9/5, 0⟩, ⟨-13/5, 0⟩, ⟨-9/5, 4/5⟩,
   ⟨9/5, 0⟩, ⟨13/5, 0⟩, ⟨9/5, 4/5⟩,
   ⟨0, 9/5⟩, ⟨0, 13/5⟩, ⟨4/5, 9/5⟩,
   ⟨0, 0⟩]

/-! ### C9: negative radius -/

/-- C9: for every tree, query point, accumulator and radius r < 0, the
method in_range returns the accumulator exactly as passed in. -/
theorem c9_inRange_negative_radius (points : List Point) (t : KDT)
    (pt : Point) (r : ℚ) (nodes : List ℕ) (h : r < 0) :
    inRange points t pt r nodes = nodes := by
  simp [inRange, h]

/-- Witness for C9 at a concrete input. -/
theorem c9_inRange_negative_radius_witness :
    (-1 : ℚ) < 0 ∧
      inRange [] KDT.nil ⟨0, 0⟩ (-1) [5] = [5] :=
  ⟨by norm_num, c9_inRange_negative_radius [] KDT.nil ⟨0, 0⟩ (-1) [5] (by norm_num)⟩

/-! ### C7: normalization in fast_cos -/

/-- C7 counterexample: at the finite input x = -10 the normalization of
fast_cos leaves x + PI/2 below -PI (the subtraction loop only runs for
values above PI), so the out-of-range fatal branch of fast_sine is
reached: fast_cos panics (modelled by none). -/
theorem c7_fastCos_panics_below :
    fastCos (-10) = none := by
  with_unfolding_all rfl

/-- The normalization loop result never exceeds PI. -/
theorem normPi_le (x : ℚ) : normPi x ≤ PI := by
  rw [normPi]
  by_cases h : x ≤ PI
  · simp [h]
  · rw [if_neg h]
    push_neg at h
    have h2pi : (0 : ℚ) < 2 * PI := by norm_num [PI]
    have hc := Int.le_ceil ((x - PI) / (2 * PI))
    rw [div_le_iff₀ h2pi] at hc
    linarith

/-- Given a start value at least -PI, the normalization loop result is
at least -PI (strictly above it when the loop runs). -/
theorem normPi_lower {x : ℚ} (h : -PI ≤ x) : -PI ≤ normPi x := by
  rw [normPi]
  by_cases hle : x ≤ PI
  · simpa [hle] using h
  · rw [if_neg hle]
    push_neg at hle
    have h2pi : (0 : ℚ) < 2 * PI := by norm_num [PI]
    have hc := Int.ceil_lt_add_one ((x - PI) / (2 * PI))
    have hc2 : ((⌈(x - PI) / (2 * PI)⌉ : ℚ) - 1) < (x - PI) / (2 * PI) := by
      linarith
    have hc3 := (lt_div_iff₀ h2pi).mp hc2
    linarith

/-- C7, amended: for every x with x at least -3 PI / 2 (so that
x + PI/2 is at least -PI), the normalization performed by fast_cos
produces a value in the closed interval from -PI to PI, and fast_cos
does not reach the fatal branch: it returns the parabola approximation
of the normalized argument. -/
theorem c7_fastCos_safe_of_lower_bound (x : ℚ)
    (h : -(3 * PI) / 2 ≤ x) :
    (-PI ≤ normPi (x + PI / 2) ∧ normPi (x + PI / 2) ≤ PI) ∧
      fastCos x = some (fastCosVal x) := by
  have h1 : -PI ≤ x + PI / 2 := by linarith
  have h2 := normPi_lower h1
  have h3 := normPi_le (x + PI / 2)
  refine ⟨⟨h2, h3⟩, ?_⟩
  rw [fastCos, fastSine, if_pos ⟨h2, h3⟩, fastCosVal]

/-- Witness for the amended C7 at x = 0. -/
theorem c7_fastCos_safe_of_lower_bound_witness :
    -(3 * PI) / 2 ≤ (0 : ℚ) ∧
      ((-PI ≤ normPi (0 + PI / 2) ∧ normPi (0 + PI / 2) ≤ PI) ∧
        fastCos 0 = some (fastCosVal 0)) :=
  ⟨by norm_num [PI], c7_fastCos_safe_of_lower_bound 0 (by norm_num [PI])⟩

/-! ### C6: a point can be both noise and a cluster member -/

/-- C6: there is an input on which db_scan records an index both in the
noise list and in the member list of some cluster: with the three
collinear points, minPts = 3 and eps of one internal unit, index 0 is
recorded as noise at first visitation and later swept into cluster 0 as
a border member. -/
theorem c6_noise_and_cluster_overlap :
    0 ∈ (dbScan ptsBorder epsOne 3).2 ∧
      ∃ cl, cl ∈ (dbScan ptsBorder epsOne 3).1 ∧ 0 ∈ cl.points := by
  refine ⟨by with_unfolding_all decide, ⟨0, [1, 2, 0]⟩, ?_, ?_⟩
  · with_unfolding_all decide
  · with_unfolding_all decide

/-! ### C3 counterexample: a cluster below the density threshold -/

set_option maxRecDepth 20000 in
/-- C3 counterexample: on the thirteen-point input with eps of one
internal unit and min_points = 4, db_scan emits a cluster (id 3, seeded
by point 12) whose member list has a single entry, because all other
neighbors of the seed were already members of earlier clusters. -/
theorem c3_cluster_below_min_points :
    ¬ (∀ cl ∈ (dbScan ptsSmall epsOne 4).1, 4 ≤ cl.points.length) := by
  intro h
  have h12 : (⟨3, [12]⟩ : Cluster) ∈ (dbScan ptsSmall epsOne 4).1 := by
    with_unfolding_all decide
  have := h ⟨3, [12]⟩ h12
  simp at this

/-! ### C1 counterexample: tree query misses an in-range point -/

/-- C1 counterexample: on the two-point list ptsPrune with query point
(2, 89) and radius 1/2 (nonnegative), the K-D tree in_range query
started from an empty accumulator disagrees with the brute-force
region_query as a set of indices: the brute-force scan reports index 0
(fast squared distance about 0.00068 < 1/4) but the tree prunes the
subtree containing it (the splitting-plane bound, evaluated at average
latitude -1/2, is about 0.9999 > 1/4). -/
theorem c1_inRange_misses_inrange_point :
    ¬ (∀ j, j ∈ inRange ptsPrune (newKdTree ptsPrune) ⟨2, 89⟩ (1/2) [] ↔
        j ∈ regionQuery ptsPrune ⟨2, 89⟩ (1/2)) := by
  intro h
  have h0 := (h 0).mpr (by with_unfolding_all decide)
  have : ¬ (0 ∈ inRange ptsPrune (newKdTree ptsPrune) ⟨2, 89⟩ (1/2) []) := by
    with_unfolding_all decide
  exact this h0

/-! ### C2 counterexample: self-inclusion fails at radius zero -/

/-- C2 counterexample: on the one-point list with query point equal to
the stored point and radius r = 0 (allowed by the claim, which only
requires r at least 0), in_range returns the empty list because the
membership test is the strict comparison sq_dist < r * r = 0. -/
theorem c2_self_not_included_at_zero_radius :
    ¬ (0 ∈ inRange [(⟨0, 0⟩ : Point)] (newKdTree [⟨0, 0⟩]) ⟨0, 0⟩ 0 []) := by
  with_unfolding_all decide

/-! ### C8: exact distance is zero iff the points are equal -/

/-- Real cosine does not vanish at any rational argument: the zeros of
cosine are odd multiples of pi over two, which are irrational. -/
theorem real_cos_rat_ne_zero (q : ℚ) : Real.cos (q : ℝ) ≠ 0 := by
  intro h
  rcases Real.cos_eq_zero_iff.mp h with ⟨n, hn⟩
  have hne : (2 * (n : ℝ) + 1) ≠ 0 := by
    intro h0
    have : (2 * n + 1 : ℝ) = ((2 * n + 1 : ℤ) : ℝ) := by push_cast; ring
    rw [this] at h0
    have : (2 * n + 1 : ℤ) = 0 := by exact_mod_cast h0
    omega
  have hpi : Real.pi = (q : ℝ) * 2 / (2 * (n : ℝ) + 1) := by
    field_simp at hn ⊢
    linarith [hn]
  have : Real.pi = ((q * 2 / (2 * (n : ℚ) + 1) : ℚ) : ℝ) := by
    rw [hpi]
    push_cast
    ring
  exact (irrational_pi).ne_rat _ this

/-- C8: the exact metric distance_spherical vanishes exactly on equal
point pairs: it is zero iff the two points agree coordinate-wise (in
particular it is zero on the diagonal and nonzero on distinct pairs;
the cosine factor cannot vanish because coordinates are f64 values,
hence rational, while the zeros of cosine are irrational). -/
theorem c8_distanceSpherical_eq_zero_iff (p1 p2 : Point) :
    distanceSpherical p1 p2 = 0 ↔ p1 = p2 := by
  have hdr : ((DEGREE_RAD : ℚ) : ℝ) ≠ 0 := by
    rw [ne_eq, Rat.cast_eq_zero]
    norm_num [DEGREE_RAD, PI]
  have hE : ((EARTH_R : ℚ) : ℝ) ≠ 0 := by
    rw [ne_eq, Rat.cast_eq_zero]
    norm_num [EARTH_R]
  have hcos : Real.cos ((((p1.lat + p2.lat) / 2 : ℚ) : ℝ) * ((DEGREE_RAD : ℚ) : ℝ)) ≠ 0 := by
    have harg : (((p1.lat + p2.lat) / 2 : ℚ) : ℝ) * ((DEGREE_RAD : ℚ) : ℝ)
        = (((p1.lat + p2.lat) / 2 * DEGREE_RAD : ℚ) : ℝ) := by
      push_cast
      ring
    rw [harg]
    exact real_cos_rat_ne_zero _
  rw [distanceSpherical]
  constructor
  · intro h
    rcases mul_eq_zero.mp h with hE0 | hsq
    · exact absurd hE0 hE
    · have hsum := Real.sqrt_eq_zero'.mp hsq
      set a : ℝ := ((p1.lat - p2.lat : ℚ) : ℝ) * ((DEGREE_RAD : ℚ) : ℝ) with ha
      set b : ℝ := ((p1.lon - p2.lon : ℚ) : ℝ) * ((DEGREE_RAD : ℚ) : ℝ) *
        Real.cos ((((p1.lat + p2.lat) / 2 : ℚ) : ℝ) * ((DEGREE_RAD : ℚ) : ℝ)) with hb
      have ha2 : (0 : ℝ) ≤ a * a := mul_self_nonneg a
      have hb2 : (0 : ℝ) ≤ b * b := mul_self_nonneg b
      have haz : a * a = 0 := by linarith
      have hbz : b * b = 0 := by linarith
      have ha0 : a = 0 := by
        rcases mul_eq_zero.mp haz with h' | h' <;> exact h'
      have hb0 : b = 0 := by
        rcases mul_eq_zero.mp hbz with h' | h' <;> exact h'
      have hlat : p1.lat = p2.lat := by
        rcases mul_eq_zero.mp ha0 with h' | h'
        · have : ((p1.lat - p2.lat : ℚ) : ℝ) = 0 := h'
          rw [Rat.cast_eq_zero, sub_eq_zero] at this
          exact this
        · exact absurd h' hdr
      have hlon : p1.lon = p2.lon := by
        rcases mul_eq_zero.mp hb0 with h' | h'
        · rcases mul_eq_zero.mp h' with h'' | h''
          · have : ((p1.lon - p2.lon : ℚ) : ℝ) = 0 := h''
            rw [Rat.cast_eq_zero, sub_eq_zero] at this
            exact this
          · exact absurd h'' hdr
        · exact absurd h' hcos
      cases p1
      cases p2
      simp_all
  · intro h
    subst h
    simp

/-! ### Boolean array helpers

The engine reads its boolean arrays with getD (default false) and
writes with set; these lemmas describe the combination. -/

theorem getD_false_oob {l : List Bool} {j : ℕ} (h : l.length ≤ j) :
    l.getD j false = false := by
  simp [List.getD_eq_getElem?_getD, List.getElem?_eq_none h]

theorem getD_set_true {l : List Bool} {i j : ℕ} :
    (l.set i true).getD j false = true ↔
      (j = i ∧ i < l.length) ∨ l.getD j false = true := by
  by_cases hij : i = j
  · subst hij
    by_cases hlen : i < l.length
    · simp [List.getD_eq_getElem?_getD, List.getElem?_set_self hlen, hlen]
    · rw [List.set_eq_of_length_le (by omega)]
      simp [hlen]
  · simp [List.getD_eq_getElem?_getD, List.getElem?_set_ne hij]
    intro h
    exact absurd h.symm hij

theorem getD_set_true_mono {l : List Bool} {i j : ℕ}
    (h : l.getD j false = true) : (l.set i true).getD j false = true :=
  getD_set_true.mpr (Or.inr h)

theorem getD_replicate_false {n j : ℕ} :
    (List.replicate n false).getD j false = false := by
  by_cases h : j < n
  · simp [List.getD_eq_getElem?_getD, List.getElem?_replicate, h]
  · exact getD_false_oob (by simpa using Nat.le_of_not_lt h)

/-- Concatenation of all member lists of a cluster list. -/
def clustersConcat (cls : List Cluster) : List ℕ :=
  cls.foldr (fun cl acc => cl.points ++ acc) []

theorem mem_clustersConcat {cls : List Cluster} {j : ℕ} :
    j ∈ clustersConcat cls ↔ ∃ cl ∈ cls, j ∈ cl.points := by
  induction cls with
  | nil => simp [clustersConcat]
  | cons cl cls ih =>
    simp only [clustersConcat, List.foldr_cons, List.mem_append, List.mem_cons]
    rw [show List.foldr (fun cl acc => cl.points ++ acc) [] cls = clustersConcat cls from rfl]
    rw [ih]
    constructor
    · rintro (h | ⟨c, hc, hj⟩)
      · exact ⟨cl, Or.inl rfl, h⟩
      · exact ⟨c, Or.inr hc, hj⟩
    · rintro ⟨c, hc | hc, hj⟩
      · exact Or.inl (hc ▸ hj)
      · exact Or.inr ⟨c, hc, hj⟩

theorem clustersConcat_append (a b : List Cluster) :
    clustersConcat (a ++ b) = clustersConcat a ++ clustersConcat b := by
  induction a with
  | nil => simp [clustersConcat]
  | cons cl a ih =>
    simp only [clustersConcat, List.foldr_cons, List.cons_append] at *
    rw [ih, List.append_assoc]

/-! ### Validity and duplicate-bucket soundness of built trees -/

/-- Indices stored in a tree are valid positions, and every index in a
duplicate bucket denotes a point equal to the point of its node. -/
def TreeSound (points : List Point) : KDT → Prop
  | .nil => True
  | .node pid eqIds _ l r =>
      pid < points.length ∧
      (∀ j ∈ eqIds, j < points.length ∧
        points.getD j default = points.getD pid default) ∧
      TreeSound points l ∧ TreeSound points r

theorem medDown_le (points : List Point) (l : List ℕ) (dim : ℕ) :
    ∀ m, medDown points l dim m ≤ m := by
  intro m
  induction m with
  | zero => simp [medDown]
  | succ m ih =>
    rw [medDown]
    split
    · omega
    · omega

theorem mem_insertLe {le : ℕ → ℕ → Bool} {a j : ℕ} :
    ∀ {l : List ℕ}, j ∈ insertLe le a l ↔ j = a ∨ j ∈ l := by
  intro l
  induction l with
  | nil => simp [insertLe]
  | cons b bs ih =>
    rw [insertLe]
    split
    · simp
    · simp only [List.mem_cons, ih]
      tauto

theorem mem_sortLe {le : ℕ → ℕ → Bool} {j : ℕ} :
    ∀ {l : List ℕ}, j ∈ sortLe le l ↔ j ∈ l := by
  intro l
  induction l with
  | nil => simp [sortLe]
  | cons b bs ih =>
    simp only [sortLe, List.foldr_cons, List.mem_cons]
    rw [show List.foldr (insertLe le) [] bs = sortLe le bs from rfl]
    rw [mem_insertLe, ih]

/-- Both index lists of the PreSorted produced by splitMed keep their
elements inside the index lists of the input PreSorted. -/
theorem splitMed_subset (points : List Point) (ps : PreSorted) (dim : ℕ)
    {j : ℕ}
    (hj : j ∈ (splitMed points ps dim).2.2.1.cur0 ∨
      j ∈ (splitMed points ps dim).2.2.1.cur1 ∨
      j ∈ (splitMed points ps dim).2.2.2.cur0 ∨
      j ∈ (splitMed points ps dim).2.2.2.cur1) :
    j ∈ ps.cur0 ∨ j ∈ ps.cur1 := by
  have hdim : j ∈ ps.cur dim ∨ j ∈ ps.cur (1 - dim) → j ∈ ps.cur0 ∨ j ∈ ps.cur1 := by
    by_cases h : dim = 0
    · have e1 : ps.cur dim = ps.cur0 := by simp [PreSorted.cur, h]
      have e2 : ps.cur (1 - dim) = ps.cur1 := by simp [PreSorted.cur, h]
      rw [e1, e2]
      exact id
    · have h1 : 1 - dim = 0 := by omega
      have e1 : ps.cur dim = ps.cur1 := by simp [PreSorted.cur, h]
      have e2 : ps.cur (1 - dim) = ps.cur0 := by simp [PreSorted.cur, h1]
      rw [e1, e2]
      exact Or.symm
  apply hdim
  have hmk : ∀ a b : List ℕ,
      j ∈ (mkPreSorted dim a b).cur0 ∨ j ∈ (mkPreSorted dim a b).cur1 →
      j ∈ a ∨ j ∈ b := by
    intro a b
    by_cases h : dim = 0
    · have e : mkPreSorted dim a b = ⟨a, b⟩ := by simp [mkPreSorted, h]
      rw [e]
      exact id
    · have e : mkPreSorted dim a b = ⟨b, a⟩ := by simp [mkPreSorted, h]
      rw [e]
      exact Or.symm
  simp only [splitMed] at hj
  rcases hj with h | h | h | h
  · rcases hmk _ _ (Or.inl h) with h' | h'
    · exact Or.inl (List.take_subset _ _ h')
    · exact Or.inr (List.mem_of_mem_filter h')
  · rcases hmk _ _ (Or.inr h) with h' | h'
    · exact Or.inl (List.take_subset _ _ h')
    · exact Or.inr (List.mem_of_mem_filter h')
  · rcases hmk _ _ (Or.inl h) with h' | h'
    · exact Or.inl (List.drop_subset _ _ h')
    · exact Or.inr (List.mem_of_mem_filter h')
  · rcases hmk _ _ (Or.inr h) with h' | h'
    · exact Or.inl (List.drop_subset _ _ h')
    · exact Or.inr (List.mem_of_mem_filter h')

theorem cur_or (ps : PreSorted) (d : ℕ) {j : ℕ} (h : j ∈ ps.cur d) :
    j ∈ ps.cur0 ∨ j ∈ ps.cur1 := by
  rw [PreSorted.cur] at h
  by_cases hd : d = 0
  · rw [if_pos hd] at h
    exact Or.inl h
  · rw [if_neg hd] at h
    exact Or.inr h

theorem splitMed_med_mem (points : List Point) (ps : PreSorted) (dim : ℕ)
    (h1 : 1 ≤ (ps.cur dim).length) :
    (splitMed points ps dim).1 ∈ ps.cur dim := by
  rw [splitMed]
  have hm : medDown points (ps.cur dim) dim ((ps.cur dim).length / 2)
      < (ps.cur dim).length := by
    have := medDown_le points (ps.cur dim) dim ((ps.cur dim).length / 2)
    omega
  rw [List.getD_eq_getElem _ _ hm]
  exact List.getElem_mem hm

theorem splitMed_equal_spec (points : List Point) (ps : PreSorted) (dim : ℕ)
    {j : ℕ} (hj : j ∈ (splitMed points ps dim).2.1) :
    j ∈ ps.cur dim ∧
      points.getD j default = points.getD (splitMed points ps dim).1 default := by
  simp only [splitMed] at hj ⊢
  constructor
  · exact List.drop_subset _ _ ((List.takeWhile_prefix _).subset hj)
  · have h2 := List.mem_takeWhile_imp hj
    exact of_decide_eq_true h2

theorem buildTree_sound (points : List Point) :
    ∀ fuel depth ps,
    (∀ j, j ∈ ps.cur0 ∨ j ∈ ps.cur1 → j < points.length) →
    TreeSound points (buildTree points fuel depth ps) := by
  intro fuel
  induction fuel with
  | zero =>
    intro depth ps _
    rw [buildTree]
    trivial
  | succ fuel ih =>
    intro depth ps hvalid
    rw [buildTree]
    split
    · trivial
    · rename_i i heq
      refine ⟨?_, by simp, trivial, trivial⟩
      exact hvalid i (cur_or ps _ (heq ▸ List.mem_singleton.mpr rfl))
    · rename_i a b rest heq
      have hlen : 1 ≤ (ps.cur (depth % 2)).length := by
        rw [heq]
        simp
      refine ⟨?_, ?_, ?_, ?_⟩
      · exact hvalid _ (cur_or ps _ (splitMed_med_mem points ps _ hlen))
      · intro j hj
        rcases splitMed_equal_spec points ps (depth % 2) hj with ⟨hmem, heq2⟩
        exact ⟨hvalid _ (cur_or ps _ hmem), heq2⟩
      · exact ih (depth + 1) _ (fun j hj =>
          hvalid j (splitMed_subset points ps (depth % 2)
            (by tauto)))
      · exact ih (depth + 1) _ (fun j hj =>
          hvalid j (splitMed_subset points ps (depth % 2)
            (by tauto)))

theorem newKdTree_sound (points : List Point) :
    TreeSound points (newKdTree points) := by
  rw [newKdTree]
  split
  · trivial
  · apply buildTree_sound
    intro j hj
    have : j ∈ List.range points.length := by
      rcases hj with h | h
      · exact mem_sortLe.mp h
      · exact mem_sortLe.mp h
    simpa using this


/-- Every index emitted by in_range_recursive beyond the accumulator is
a valid position whose point passes the strict range test: the node
point is emitted only under the test itself, and its duplicate bucket
holds indices of points with identical coordinates, hence identical
fast squared distance. -/
theorem inRangeRec_sound (points : List Point) (pt : Point) (r : ℚ) :
    ∀ t, TreeSound points t → ∀ acc j,
      j ∈ inRangeRec points pt r t acc →
      j ∈ acc ∨ (j < points.length ∧
        (points.getD j default).sqDist pt < r * r) := by
  intro t
  induction t with
  | nil =>
    intro _ acc j hj
    rw [inRangeRec] at hj
    exact Or.inl hj
  | node pid eqIds split l rgt ihl ihr =>
    intro hs acc j hj
    obtain ⟨hpid, heqb, hl, hr⟩ := hs
    have hmid : ∀ (c2 : KDT),
        (∀ acc1, j ∈ inRangeRec points pt r c2 acc1 →
          j ∈ acc1 ∨ (j < points.length ∧
            (points.getD j default).sqDist pt < r * r)) →
        ∀ nodes1,
        (j ∈ nodes1 → j ∈ acc ∨ (j < points.length ∧
            (points.getD j default).sqDist pt < r * r)) →
        j ∈ inRangeRec points pt r c2
          (if (points.getD pid default).sqDist pt < r * r then
            (nodes1 ++ [pid]) ++ eqIds
          else nodes1) →
        j ∈ acc ∨ (j < points.length ∧
          (points.getD j default).sqDist pt < r * r) := by
      intro c2 ih2 nodes1 h1 hm
      rcases ih2 _ hm with hin | hgood
      · by_cases htest : (points.getD pid default).sqDist pt < r * r
        · rw [if_pos htest] at hin
          rcases List.mem_append.mp hin with hin' | hin'
          · rcases List.mem_append.mp hin' with hin'' | hin''
            · exact h1 hin''
            · have hj2 : j = pid := List.mem_singleton.mp hin''
              exact Or.inr ⟨hj2 ▸ hpid, hj2 ▸ htest⟩
          · rcases heqb j hin' with ⟨hjlt, hjeq⟩
            refine Or.inr ⟨hjlt, ?_⟩
            rw [hjeq]
            exact htest
        · rw [if_neg htest] at hin
          exact h1 hin
      · exact Or.inr hgood
    simp only [inRangeRec] at hj
    by_cases hdiff :
        pt.coord split - (points.getD pid default).coord split < 0
    · rw [if_pos hdiff] at hj
      by_cases hdist :
          (mkPt split (pt.coord split)
              ((pt.coord (1 - split) + (points.getD pid default).coord (1 - split)) / 2)).sqDist
            (mkPt split ((points.getD pid default).coord split)
              ((pt.coord (1 - split) + (points.getD pid default).coord (1 - split)) / 2)) ≤ r * r
      · rw [if_pos hdist] at hj
        exact hmid rgt (fun acc1 h => ihr hr acc1 j h) _
          (fun h => ihl hl acc j h) hj
      · rw [if_neg hdist] at hj
        exact ihl hl acc j hj
    · rw [if_neg hdiff] at hj
      by_cases hdist :
          (mkPt split (pt.coord split)
              ((pt.coord (1 - split) + (points.getD pid default).coord (1 - split)) / 2)).sqDist
            (mkPt split ((points.getD pid default).coord split)
              ((pt.coord (1 - split) + (points.getD pid default).coord (1 - split)) / 2)) ≤ r * r
      · rw [if_pos hdist] at hj
        exact hmid l (fun acc1 h => ihl hl acc1 j h) _
          (fun h => ihr hr acc j h) hj
      · rw [if_neg hdist] at hj
        exact ihr hr acc j hj

/-- C1, amended: one inclusion does hold for every point list, query
point and radius: the set of indices returned by the K-D tree in_range
query started with an empty accumulator is a subset of the brute-force
region_query set (every returned index satisfies the fast-metric test
sq_dist < r^2); the reverse inclusion fails (see the counterexample). -/
theorem c1_inRange_subset_regionQuery (points : List Point) (pt : Point)
    (r : ℚ) (j : ℕ)
    (hj : j ∈ inRange points (newKdTree points) pt r []) :
    j ∈ regionQuery points pt r := by
  rw [inRange] at hj
  by_cases hneg : r < 0
  · rw [if_pos hneg] at hj
    cases hj
  · rw [if_neg hneg] at hj
    rcases inRangeRec_sound points pt r _ (newKdTree_sound points) [] j hj with
      h | ⟨hlt, hd⟩
    · cases h
    · rw [regionQuery]
      refine List.mem_filter.mpr ⟨List.mem_range.mpr hlt, ?_⟩
      simpa using hd

/-- Witness for the amended C1 at a concrete input. -/
theorem c1_inRange_subset_regionQuery_witness :
    0 ∈ inRange [(⟨0, 0⟩ : Point)] (newKdTree [⟨0, 0⟩]) ⟨0, 0⟩ 1 [] ∧
      0 ∈ regionQuery [(⟨0, 0⟩ : Point)] ⟨0, 0⟩ 1 :=
  ⟨by with_unfolding_all decide,
   c1_inRange_subset_regionQuery [⟨0, 0⟩] ⟨0, 0⟩ 1 0
     (by with_unfolding_all decide)⟩

/-- Validity of in_range results on sound trees, used to bound the
frontier growth bookkeeping of the engine. -/
theorem inRange_valid (points : List Point) (t : KDT)
    (ht : TreeSound points t) (pt : Point) (r : ℚ) :
    ∀ j ∈ inRange points t pt r [], j < points.length := by
  intro j hj
  rw [inRange] at hj
  by_cases hneg : r < 0
  · rw [if_pos hneg] at hj
    cases hj
  · rw [if_neg hneg] at hj
    rcases inRangeRec_sound points pt r t ht [] j hj with h | ⟨hlt, _⟩
    · cases h
    · exact hlt

theorem pushNew_mem {more : List ℕ} :
    ∀ fm x, x ∈ (pushNew fm more).1 → x ∈ fm.1 ∨ x ∈ more := by
  induction more with
  | nil =>
    intro fm x h
    exact Or.inl h
  | cons p rest ih =>
    intro fm x h
    rw [pushNew, List.foldl_cons] at h
    have h' := ih _ x h
    rcases h' with h' | h'
    · by_cases hp : fm.2.getD p false
      · rw [if_pos hp] at h'
        exact Or.inl h'
      · rw [if_neg hp] at h'
        rcases List.mem_append.mp h' with h'' | h''
        · exact Or.inl h''
        · exact Or.inr (List.mem_cons.mpr (Or.inl (List.mem_singleton.mp h'')))
    · exact Or.inr (List.mem_cons.mpr (Or.inr h'))

/-- Invariant of the cluster-expansion loop, relative to a baseline
membership predicate B (membership in some earlier finished cluster)
and a noise predicate N (presence in the noise list, which the loop
never touches). -/
structure ExpInv (n : ℕ) (B N : ℕ → Prop) (visited members : List Bool)
    (cluster : Cluster) : Prop where
  vlen : visited.length = n
  mlen : members.length = n
  memIff : ∀ j, members.getD j false = true ↔ (B j ∨ j ∈ cluster.points)
  covered : ∀ j, visited.getD j false = true →
    N j ∨ members.getD j false = true
  memVis : ∀ j, members.getD j false = true → visited.getD j false = true
  nodup : cluster.points.Nodup
  notB : ∀ j ∈ cluster.points, ¬ B j


theorem expandStep1_vis (points : List Point) (tree : KDT) (eps : ℚ)
    (minPts k : ℕ) (frontier : List ℕ) (marker visited : List Bool) :
    (expandStep1 points tree eps minPts k frontier marker visited).2.2 =
      if visited.getD k false then visited else visited.set k true := by
  rw [expandStep1]
  by_cases hv : visited.getD k false
  · rw [if_pos hv, if_pos hv]
  · rw [if_neg hv, if_neg hv]
    simp only
    by_cases hmore : minPts ≤
        (inRange points tree (points.getD k default) eps []).length
    · rw [if_pos hmore]
    · rw [if_neg hmore]

theorem expandStep1_frontier_mem (points : List Point) (tree : KDT)
    (eps : ℚ) (minPts k : ℕ) (frontier : List ℕ)
    (marker visited : List Bool) {jx : ℕ}
    (hjx : jx ∈ (expandStep1 points tree eps minPts k frontier marker visited).1) :
    jx ∈ frontier ∨ jx ∈ inRange points tree (points.getD k default) eps [] := by
  rw [expandStep1] at hjx
  by_cases hv : visited.getD k false
  · rw [if_pos hv] at hjx
    exact Or.inl hjx
  · rw [if_neg hv] at hjx
    simp only at hjx
    by_cases hmore : minPts ≤
        (inRange points tree (points.getD k default) eps []).length
    · rw [if_pos hmore] at hjx
      exact pushNew_mem _ jx hjx
    · rw [if_neg hmore] at hjx
      exact Or.inl hjx

/-- The expansion loop preserves the invariant; moreover it only
appends to the cluster member list, only sets visited bits, and keeps
the cluster id. -/
theorem expand_inv (points : List Point) (tree : KDT) (eps : ℚ)
    (minPts : ℕ)
    (hvalid : ∀ pt jx, jx ∈ inRange points tree pt eps [] →
      jx < points.length)
    (B N : ℕ → Prop) :
    ∀ fuel j frontier marker visited members cluster,
    (∀ jx ∈ frontier, jx < points.length) →
    ExpInv points.length B N visited members cluster →
    ExpInv points.length B N
        (expand points tree eps minPts fuel j frontier marker visited members cluster).1
        (expand points tree eps minPts fuel j frontier marker visited members cluster).2.1
        (expand points tree eps minPts fuel j frontier marker visited members cluster).2.2 ∧
      (∃ t, (expand points tree eps minPts fuel j frontier marker visited members cluster).2.2.points
        = cluster.points ++ t) ∧
      (∀ jx, visited.getD jx false = true →
        (expand points tree eps minPts fuel j frontier marker visited members cluster).1.getD jx false = true) ∧
      (expand points tree eps minPts fuel j frontier marker visited members cluster).2.2.c = cluster.c := by
  intro fuel
  induction fuel with
  | zero =>
    intro j frontier marker visited members cluster hf hinv
    rw [expand]
    exact ⟨hinv, ⟨[], by simp⟩, fun jx h => h, rfl⟩
  | succ fuel ih =>
    intro j frontier marker visited members cluster hf hinv
    rw [expand]
    by_cases hj : j < frontier.length
    · rw [if_pos hj]
      simp only
      have hkmem : frontier.getD j 0 ∈ frontier := by
        rw [List.getD_eq_getElem _ _ hj]
        exact List.getElem_mem hj
      generalize hk : frontier.getD j 0 = k
      rw [hk] at hkmem
      have hkn : k < points.length := hf k hkmem
      have hsetk : (visited.set k true).getD k false = true := by
        rw [getD_set_true]
        exact Or.inl ⟨rfl, by rw [hinv.vlen]; exact hkn⟩
      have hvis1 := expandStep1_vis points tree eps minPts k frontier marker visited
      have hfront1 : ∀ jx ∈ (expandStep1 points tree eps minPts k frontier marker visited).1,
          jx < points.length := by
        intro jx hjx
        rcases expandStep1_frontier_mem points tree eps minPts k frontier marker visited hjx with
          h | h
        · exact hf jx h
        · exact hvalid _ jx h
      have hviskT : (expandStep1 points tree eps minPts k frontier marker visited).2.2.getD k false = true := by
        rw [hvis1]
        by_cases hv : visited.getD k false
        · rw [if_pos hv]
          exact hv
        · rw [if_neg hv]
          exact hsetk
      have hvismono : ∀ jx, visited.getD jx false = true →
          (expandStep1 points tree eps minPts k frontier marker visited).2.2.getD jx false = true := by
        intro jx hjx
        rw [hvis1]
        by_cases hv : visited.getD k false
        · rw [if_pos hv]
          exact hjx
        · rw [if_neg hv]
          exact getD_set_true_mono hjx
      have hvlen1 : (expandStep1 points tree eps minPts k frontier marker visited).2.2.length = points.length := by
        rw [hvis1]
        by_cases hv : visited.getD k false
        · rw [if_pos hv]
          exact hinv.vlen
        · rw [if_neg hv, List.length_set]
          exact hinv.vlen
      have hinv' : ExpInv points.length B N
          (expandStep1 points tree eps minPts k frontier marker visited).2.2
          (expandStep2 k members cluster).1
          (expandStep2 k members cluster).2 := by
        rw [expandStep2]
        by_cases hm : members.getD k false
        · rw [if_pos hm]
          exact
            { vlen := hvlen1
              mlen := hinv.mlen
              memIff := hinv.memIff
              covered := fun jx hjx => by
                rw [hvis1] at hjx
                by_cases hv : visited.getD k false
                · rw [if_pos hv] at hjx
                  exact hinv.covered jx hjx
                · rw [if_neg hv] at hjx
                  rcases getD_set_true.mp hjx with ⟨hjk, _⟩ | hjx'
                  · subst hjk
                    exact Or.inr hm
                  · exact hinv.covered jx hjx'
              memVis := fun jx hjx => hvismono jx (hinv.memVis jx hjx)
              nodup := hinv.nodup
              notB := hinv.notB }
        · rw [if_neg hm]
          have hknotin : k ∉ cluster.points := by
            intro hkin
            rw [(hinv.memIff k).mpr (Or.inr hkin)] at hm
            exact hm rfl
          have hknotB : ¬ B k := by
            intro hB
            rw [(hinv.memIff k).mpr (Or.inl hB)] at hm
            exact hm rfl
          exact
            { vlen := hvlen1
              mlen := by
                simp only [List.length_set]
                exact hinv.mlen
              memIff := fun jx => by
                simp only
                rw [getD_set_true]
                constructor
                · rintro (⟨hjk, _⟩ | hjx)
                  · subst hjk
                    exact Or.inr (by simp)
                  · rcases (hinv.memIff jx).mp hjx with h | h
                    · exact Or.inl h
                    · exact Or.inr (by simp [h])
                · rintro (hB | hjx)
                  · exact Or.inr ((hinv.memIff jx).mpr (Or.inl hB))
                  · rcases List.mem_append.mp hjx with h | h
                    · exact Or.inr ((hinv.memIff jx).mpr (Or.inr h))
                    · have hjk : jx = k := List.mem_singleton.mp h
                      subst hjk
                      exact Or.inl ⟨rfl, by rw [hinv.mlen]; exact hkn⟩
              covered := fun jx hjx => by
                by_cases hjk : jx = k
                · subst hjk
                  refine Or.inr ?_
                  rw [getD_set_true]
                  exact Or.inl ⟨rfl, by rw [hinv.mlen]; exact hkn⟩
                · have hjx' : visited.getD jx false = true := by
                    rw [hvis1] at hjx
                    by_cases hv : visited.getD k false
                    · rw [if_pos hv] at hjx
                      exact hjx
                    · rw [if_neg hv] at hjx
                      rcases getD_set_true.mp hjx with ⟨hjk', _⟩ | hjx'
                      · exact absurd hjk' hjk
                      · exact hjx'
                  rcases hinv.covered jx hjx' with h | h
                  · exact Or.inl h
                  · exact Or.inr (getD_set_true_mono h)
              memVis := fun jx hjx => by
                rcases getD_set_true.mp hjx with ⟨hjk, _⟩ | hjx'
                · subst hjk
                  exact hviskT
                · exact hvismono jx (hinv.memVis jx hjx')
              nodup := by
                simp only
                rw [List.nodup_append]
                exact ⟨hinv.nodup, List.nodup_singleton k,
                  by simpa using fun hkin => hknotin hkin⟩
              notB := fun jx hjx => by
                rcases List.mem_append.mp hjx with h | h
                · exact hinv.notB jx h
                · have hjk : jx = k := List.mem_singleton.mp h
                  subst hjk
                  exact hknotB }
      have hrec := ih (j + 1)
        (expandStep1 points tree eps minPts k frontier marker visited).1
        (expandStep1 points tree eps minPts k frontier marker visited).2.1
        (expandStep1 points tree eps minPts k frontier marker visited).2.2
        (expandStep2 k members cluster).1
        (expandStep2 k members cluster).2
        hfront1 hinv'
      have hpts : (expandStep2 k members cluster).2.points = cluster.points ∨
          (expandStep2 k members cluster).2.points = cluster.points ++ [k] := by
        rw [expandStep2]
        by_cases hm : members.getD k false
        · rw [if_pos hm]
          exact Or.inl rfl
        · rw [if_neg hm]
          exact Or.inr rfl
      have hcfield : (expandStep2 k members cluster).2.c = cluster.c := by
        rw [expandStep2]
        by_cases hm : members.getD k false
        · rw [if_pos hm]
        · rw [if_neg hm]
      refine ⟨hrec.1, ?_, ?_, ?_⟩
      · rcases hrec.2.1 with ⟨t, ht⟩
        rcases hpts with h | h
        · exact ⟨t, by rw [ht, h]⟩
        · exact ⟨[k] ++ t, by rw [ht, h, List.append_assoc]⟩
      · intro jx hjx
        exact hrec.2.2.1 jx (hvismono jx hjx)
      · rw [hrec.2.2.2, hcfield]
    · rw [if_neg hj]
      exact ⟨hinv, ⟨[], by simp⟩, fun jx h => h, rfl⟩

/-- Invariant of the outer scan state of db_scan. -/
structure StateInv (points : List Point) (tree : KDT) (eps : ℚ)
    (minPts : ℕ) (s : DBState) : Prop where
  vlen : s.visited.length = points.length
  mlen : s.members.length = points.length
  memIff : ∀ j, s.members.getD j false = true ↔ j ∈ clustersConcat s.clusters
  covered : ∀ j, s.visited.getD j false = true →
    j ∈ s.noise ∨ s.members.getD j false = true
  memVis : ∀ j, s.members.getD j false = true →
    s.visited.getD j false = true
  concatNodup : (clustersConcat s.clusters).Nodup
  clOk : ∀ cl ∈ s.clusters, ∃ i0, cl.points.head? = some i0 ∧
    i0 < points.length ∧
    minPts ≤ (inRange points tree (points.getD i0 default) eps []).length

/-- One iteration of the outer loop preserves the state invariant,
marks its index visited and never unsets a visited bit. -/
theorem dbScanStep_inv (points : List Point) (tree : KDT) (eps : ℚ)
    (minPts : ℕ)
    (hvalid : ∀ pt jx, jx ∈ inRange points tree pt eps [] →
      jx < points.length)
    (s : DBState) (i : ℕ) (hi : i < points.length)
    (hinv : StateInv points tree eps minPts s) :
    StateInv points tree eps minPts (dbScanStep points tree eps minPts s i) ∧
      (dbScanStep points tree eps minPts s i).visited.getD i false = true ∧
      (∀ jx, s.visited.getD jx false = true →
        (dbScanStep points tree eps minPts s i).visited.getD jx false = true) := by
  by_cases hv : s.visited.getD i false
  · have hstep : dbScanStep points tree eps minPts s i = s := by
      rw [dbScanStep, if_pos hv]
    rw [hstep]
    exact ⟨hinv, hv, fun jx h => h⟩
  · have hsetiT : (s.visited.set i true).getD i false = true := by
      rw [getD_set_true]
      exact Or.inl ⟨rfl, by rw [hinv.vlen]; exact hi⟩
    by_cases hn : (inRange points tree (points.getD i default) eps []).length < minPts
    · -- noise branch
      have hstep : dbScanStep points tree eps minPts s i =
          { s with visited := s.visited.set i true,
                   noise := s.noise ++ [i] } := by
        simp only [dbScanStep]
        rw [if_neg hv, if_pos hn]
      rw [hstep]
      refine ⟨?_, hsetiT, fun jx h => getD_set_true_mono h⟩
      exact
        { vlen := by
            simp only [List.length_set]
            exact hinv.vlen
          mlen := hinv.mlen
          memIff := hinv.memIff
          covered := fun jx hjx => by
            rcases getD_set_true.mp hjx with ⟨hji, _⟩ | hjx'
            · subst hji
              exact Or.inl (by simp)
            · rcases hinv.covered jx hjx' with h | h
              · exact Or.inl (List.mem_append.mpr (Or.inl h))
              · exact Or.inr h
          memVis := fun jx hjx => getD_set_true_mono (hinv.memVis jx hjx)
          concatNodup := hinv.concatNodup
          clOk := hinv.clOk }
    · -- cluster branch
      have hmi : s.members.getD i false = false := by
        cases h : s.members.getD i false
        · rfl
        · exact absurd (hinv.memVis i h) hv
      have hinv0 : ExpInv points.length (· ∈ clustersConcat s.clusters)
          (· ∈ s.noise) (s.visited.set i true) (s.members.set i true)
          ⟨s.c, [i]⟩ := by
        refine
          { vlen := by
              simp only [List.length_set]
              exact hinv.vlen
            mlen := by
              simp only [List.length_set]
              exact hinv.mlen
            memIff := fun jx => ?_
            covered := fun jx hjx => ?_
            memVis := fun jx hjx => ?_
            nodup := List.nodup_singleton i
            notB := fun jx hjx hB => ?_ }
        · rw [getD_set_true]
          constructor
          · rintro (⟨hji, _⟩ | hjx)
            · subst hji
              exact Or.inr (by simp)
            · exact Or.inl ((hinv.memIff jx).mp hjx)
          · rintro (hB | hjx)
            · exact Or.inr ((hinv.memIff jx).mpr hB)
            · have hji : jx = i := by simpa using hjx
              subst hji
              exact Or.inl ⟨rfl, by rw [hinv.mlen]; exact hi⟩
        · rcases getD_set_true.mp hjx with ⟨hji, _⟩ | hjx'
          · subst hji
            refine Or.inr ?_
            rw [getD_set_true]
            exact Or.inl ⟨rfl, by rw [hinv.mlen]; exact hi⟩
          · rcases hinv.covered jx hjx' with h | h
            · exact Or.inl h
            · exact Or.inr (getD_set_true_mono h)
        · rcases getD_set_true.mp hjx with ⟨hji, _⟩ | hjx'
          · subst hji
            exact hsetiT
          · exact getD_set_true_mono (hinv.memVis jx hjx')
        · have hji : jx = i := by simpa using hjx
          subst hji
          have := hinv.memVis jx ((hinv.memIff jx).mpr hB)
          exact hv this
      have hexp := expand_inv points tree eps minPts hvalid
        (· ∈ clustersConcat s.clusters) (· ∈ s.noise)
        ((inRange points tree (points.getD i default) eps []).length + points.length + 1)
        0 (inRange points tree (points.getD i default) eps [])
        ((inRange points tree (points.getD i default) eps []).foldl
          (fun m j => m.set j true) (List.replicate points.length false))
        (s.visited.set i true) (s.members.set i true) ⟨s.c, [i]⟩
        (fun jx hjx => hvalid _ jx hjx) hinv0
      set r := expand points tree eps minPts
        ((inRange points tree (points.getD i default) eps []).length + points.length + 1)
        0 (inRange points tree (points.getD i default) eps [])
        ((inRange points tree (points.getD i default) eps []).foldl
          (fun m j => m.set j true) (List.replicate points.length false))
        (s.visited.set i true) (s.members.set i true) ⟨s.c, [i]⟩ with hr
      have hstep : dbScanStep points tree eps minPts s i =
          { visited := r.1, members := r.2.1,
            clusters := s.clusters ++ [r.2.2], noise := s.noise,
            c := s.c + 1 } := by
        simp only [dbScanStep]
        rw [if_neg hv, if_neg hn]
      rw [hstep]
      obtain ⟨hout, ⟨t, htail⟩, hmono, hcfield⟩ := hexp
      have hconcat : clustersConcat (s.clusters ++ [r.2.2]) =
          clustersConcat s.clusters ++ r.2.2.points := by
        rw [clustersConcat_append]
        simp [clustersConcat]
      refine ⟨?_, ?_, ?_⟩
      · exact
          { vlen := hout.vlen
            mlen := hout.mlen
            memIff := fun jx => by
              rw [hconcat, List.mem_append]
              exact hout.memIff jx
            covered := fun jx hjx => hout.covered jx hjx
            memVis := fun jx hjx => hout.memVis jx hjx
            concatNodup := by
              rw [hconcat, List.nodup_append]
              refine ⟨hinv.concatNodup, hout.nodup, ?_⟩
              intro a ha hb
              exact hout.notB a hb ha
            clOk := fun cl hcl => by
              rcases List.mem_append.mp hcl with h | h
              · exact hinv.clOk cl h
              · have hcl' : cl = r.2.2 := by simpa using h
                subst hcl'
                refine ⟨i, ?_, hi, by omega⟩
                rw [htail]
                simp }
      · exact hmono i hsetiT
      · intro jx hjx
        exact hmono jx (getD_set_true_mono hjx)

/-- The initial engine state. -/
def initState (n : ℕ) : DBState :=
  { visited := List.replicate n false,
    members := List.replicate n false,
    clusters := [], noise := [], c := 0 }

theorem initState_inv (points : List Point) (tree : KDT) (eps : ℚ)
    (minPts : ℕ) :
    StateInv points tree eps minPts (initState points.length) :=
  { vlen := by simp [initState]
    mlen := by simp [initState]
    memIff := fun j => by
      simp [initState, getD_replicate_false, clustersConcat]
    covered := fun j hj => by
      rw [initState] at hj
      simp only at hj
      rw [getD_replicate_false] at hj
      cases hj
    memVis := fun j hj => by
      rw [initState] at hj
      simp only at hj
      rw [getD_replicate_false] at hj
      cases hj
    concatNodup := by simp [initState, clustersConcat]
    clOk := fun cl hcl => by
      rw [initState] at hcl
      cases hcl }

/-- The outer loop, run over the first n indices, preserves the state
invariant and visits every index below n. -/
theorem dbScanLoop_inv (points : List Point) (tree : KDT) (eps : ℚ)
    (minPts : ℕ)
    (hvalid : ∀ pt jx, jx ∈ inRange points tree pt eps [] →
      jx < points.length) :
    ∀ n, n ≤ points.length →
    StateInv points tree eps minPts
        ((List.range n).foldl (dbScanStep points tree eps minPts)
          (initState points.length)) ∧
      ∀ j < n, ((List.range n).foldl (dbScanStep points tree eps minPts)
          (initState points.length)).visited.getD j false = true := by
  intro n
  induction n with
  | zero =>
    intro _
    refine ⟨?_, ?_⟩
    · simpa using initState_inv points tree eps minPts
    · intro j hj
      omega
  | succ n ih =>
    intro hn
    have hstep := dbScanStep_inv points tree eps minPts hvalid
      ((List.range n).foldl (dbScanStep points tree eps minPts)
        (initState points.length)) n (by omega)
      (ih (by omega)).1
    have hfold : (List.range (n + 1)).foldl (dbScanStep points tree eps minPts)
        (initState points.length) =
        dbScanStep points tree eps minPts
          ((List.range n).foldl (dbScanStep points tree eps minPts)
            (initState points.length)) n := by
      rw [List.range_succ, List.foldl_append, List.foldl_cons, List.foldl_nil]
    rw [hfold]
    refine ⟨hstep.1, ?_⟩
    intro j hj
    by_cases hjn : j = n
    · subst hjn
      exact hstep.2.1
    · exact hstep.2.2 j ((ih (by omega)).2 j (by omega))

/-- Validity of in_range results over the tree built by db_scan. -/
theorem dbScan_tree_valid (points : List Point) (eps : ℚ) :
    ∀ pt jx, jx ∈ inRange points (newKdTree points) pt eps [] →
      jx < points.length := by
  intro pt jx hjx
  exact inRange_valid points (newKdTree points) (newKdTree_sound points) pt eps jx hjx

/-- The final state of db_scan. -/
theorem dbScan_eq (points : List Point) (eps : ℚ) (minPts : ℕ) :
    dbScan points eps minPts =
      (((List.range points.length).foldl
          (dbScanStep points (newKdTree points) (eps / EARTH_R / DEGREE_RAD) minPts)
          (initState points.length)).clusters,
        ((List.range points.length).foldl
          (dbScanStep points (newKdTree points) (eps / EARTH_R / DEGREE_RAD) minPts)
          (initState points.length)).noise) := by
  rw [dbScan, initState]

/-- C4: every point index below the length of the input appears in the
noise list or in some cluster of the db_scan output: no point is
silently dropped. -/
theorem c4_every_index_covered (points : List Point) (eps : ℚ)
    (minPts : ℕ) (j : ℕ) (hj : j < points.length) :
    j ∈ (dbScan points eps minPts).2 ∨
      ∃ cl ∈ (dbScan points eps minPts).1, j ∈ cl.points := by
  obtain ⟨hinv, hproc⟩ := dbScanLoop_inv points (newKdTree points)
    (eps / EARTH_R / DEGREE_RAD) minPts (dbScan_tree_valid points _)
    points.length le_rfl
  rw [dbScan_eq]
  rcases hinv.covered j (hproc j hj) with h | h
  · exact Or.inl h
  · refine Or.inr ?_
    have := (hinv.memIff j).mp h
    rw [mem_clustersConcat] at this
    exact this

/-- Witness for C4 at a concrete input. -/
theorem c4_every_index_covered_witness :
    0 < ptsBorder.length ∧
      (0 ∈ (dbScan ptsBorder epsOne 3).2 ∨
        ∃ cl ∈ (dbScan ptsBorder epsOne 3).1, 0 ∈ cl.points) :=
  ⟨by simp [ptsBorder],
   c4_every_index_covered ptsBorder epsOne 3 0 (by simp [ptsBorder])⟩

/-- C5: no point index occurs twice across the concatenation of the
member lists of all clusters returned by db_scan: indices are appended
only under the membership guard, so the concatenation is
duplicate-free (both across clusters and within one cluster). -/
theorem c5_clusters_mutually_disjoint (points : List Point) (eps : ℚ)
    (minPts : ℕ) :
    (clustersConcat (dbScan points eps minPts).1).Nodup := by
  obtain ⟨hinv, _⟩ := dbScanLoop_inv points (newKdTree points)
    (eps / EARTH_R / DEGREE_RAD) minPts (dbScan_tree_valid points _)
    points.length le_rfl
  rw [dbScan_eq]
  exact hinv.concatNodup

/-- C10: every cluster returned by db_scan is nonempty, its first
member is the seed index (a valid index whose neighborhood meets the
density threshold, recorded when the cluster was created), and
consequently centroid_and_bounds never hits its empty-cluster
failure on db_scan output. -/
theorem c10_cluster_head_is_seed (points : List Point) (eps : ℚ)
    (minPts : ℕ) (cl : Cluster)
    (hcl : cl ∈ (dbScan points eps minPts).1) :
    cl.points ≠ [] ∧
      (∃ i0, cl.points.head? = some i0 ∧ i0 < points.length ∧
        minPts ≤ (inRange points (newKdTree points)
          (points.getD i0 default) (eps / EARTH_R / DEGREE_RAD) []).length) ∧
      centroidAndBounds cl points ≠ none := by
  obtain ⟨hinv, _⟩ := dbScanLoop_inv points (newKdTree points)
    (eps / EARTH_R / DEGREE_RAD) minPts (dbScan_tree_valid points _)
    points.length le_rfl
  rw [dbScan_eq] at hcl
  obtain ⟨i0, hhead, hi0, hseed⟩ := hinv.clOk cl hcl
  have hne : cl.points ≠ [] := by
    intro h
    rw [h] at hhead
    cases hhead
  refine ⟨hne, ⟨i0, hhead, hi0, hseed⟩, ?_⟩
  rw [centroidAndBounds, if_neg hne]
  exact Option.some_ne_none _

/-- Witness for C10 at a concrete input. -/
theorem c10_cluster_head_is_seed_witness :
    (⟨0, [1, 2, 0]⟩ : Cluster) ∈ (dbScan ptsBorder epsOne 3).1 ∧
      ((⟨0, [1, 2, 0]⟩ : Cluster).points ≠ [] ∧
        (∃ i0, (⟨0, [1, 2, 0]⟩ : Cluster).points.head? = some i0 ∧
          i0 < ptsBorder.length ∧
          3 ≤ (inRange ptsBorder (newKdTree ptsBorder)
            (ptsBorder.getD i0 default) (epsOne / EARTH_R / DEGREE_RAD) []).length) ∧
        centroidAndBounds ⟨0, [1, 2, 0]⟩ ptsBorder ≠ none) :=
  ⟨by with_unfolding_all decide,
   c10_cluster_head_is_seed ptsBorder epsOne 3 ⟨0, [1, 2, 0]⟩
     (by with_unfolding_all decide)⟩

/-- C3, amended: every cluster in the db_scan output is nonempty (it
contains at least its seed).  The stronger bound of the claim, at
least min_points members per cluster, fails: see the counterexample,
where neighbors of the seed that already belong to earlier clusters
are skipped by the membership guard. -/
theorem c3_clusters_nonempty (points : List Point) (eps : ℚ)
    (minPts : ℕ) (cl : Cluster)
    (hcl : cl ∈ (dbScan points eps minPts).1) :
    1 ≤ cl.points.length := by
  obtain ⟨hinv, _⟩ := dbScanLoop_inv points (newKdTree points)
    (eps / EARTH_R / DEGREE_RAD) minPts (dbScan_tree_valid points _)
    points.length le_rfl
  rw [dbScan_eq] at hcl
  obtain ⟨i0, hhead, _, _⟩ := hinv.clOk cl hcl
  cases hp : cl.points with
  | nil =>
    rw [hp] at hhead
    cases hhead
  | cons a t =>
    simp [hp]

/-- Witness for the amended C3 at a concrete input. -/
theorem c3_clusters_nonempty_witness :
    (⟨0, [1, 2, 0]⟩ : Cluster) ∈ (dbScan ptsBorder epsOne 3).1 ∧
      1 ≤ (⟨0, [1, 2, 0]⟩ : Cluster).points.length :=
  ⟨by with_unfolding_all decide,
   c3_clusters_nonempty ptsBorder epsOne 3 ⟨0, [1, 2, 0]⟩
     (by with_unfolding_all decide)⟩

/-! ### Sortedness infrastructure for the tree-build completeness proof -/

theorem dimLe_total (points : List Point) (i a b : ℕ) :
    dimLe points i a b = true ∨ dimLe points i b a = true := by
  rw [dimLe, dimLe]
  by_cases h : (points.getD a default).coord i = (points.getD b default).coord i
  · rw [if_pos h, if_pos h.symm]
    simp only [decide_eq_true_eq]
    exact le_total _ _
  · rw [if_neg h, if_neg (fun h' => h h'.symm)]
    simp only [decide_eq_true_eq]
    rcases lt_or_gt_of_ne h with h' | h'
    · exact Or.inl h'
    · exact Or.inr h'

theorem dimLe_trans (points : List Point) (i : ℕ) {a b c : ℕ}
    (hab : dimLe points i a b = true) (hbc : dimLe points i b c = true) :
    dimLe points i a c = true := by
  rw [dimLe] at hab hbc ⊢
  by_cases h1 : (points.getD a default).coord i = (points.getD b default).coord i
  · rw [if_pos h1] at hab
    by_cases h2 : (points.getD b default).coord i = (points.getD c default).coord i
    · rw [if_pos h2] at hbc
      rw [if_pos (h1.trans h2)]
      simp only [decide_eq_true_eq] at hab hbc ⊢
      exact le_trans hab hbc
    · rw [if_neg h2] at hbc
      simp only [decide_eq_true_eq] at hbc
      have hac : (points.getD a default).coord i < (points.getD c default).coord i := by
        rw [h1]
        exact hbc
      rw [if_neg (ne_of_lt hac)]
      simpa using hac
  · rw [if_neg h1] at hab
    simp only [decide_eq_true_eq] at hab
    by_cases h2 : (points.getD b default).coord i = (points.getD c default).coord i
    · have hac : (points.getD a default).coord i < (points.getD c default).coord i := by
        rw [← h2]
        exact hab
      rw [if_neg (ne_of_lt hac)]
      simpa using hac
    · rw [if_neg h2] at hbc
      simp only [decide_eq_true_eq] at hbc
      have hac := lt_trans hab hbc
      rw [if_neg (ne_of_lt hac)]
      simpa using hac

theorem dimLe_coord_le (points : List Point) (i : ℕ) {a b : ℕ}
    (hab : dimLe points i a b = true) :
    (points.getD a default).coord i ≤ (points.getD b default).coord i := by
  rw [dimLe] at hab
  by_cases h : (points.getD a default).coord i = (points.getD b default).coord i
  · exact le_of_eq h
  · rw [if_neg h] at hab
    simp only [decide_eq_true_eq] at hab
    exact le_of_lt hab

theorem insertLe_perm (le : ℕ → ℕ → Bool) (a : ℕ) :
    ∀ l : List ℕ, List.Perm (insertLe le a l) (a :: l) := by
  intro l
  induction l with
  | nil => rw [insertLe]
  | cons b bs ih =>
    rw [insertLe]
    by_cases h : le a b
    · rw [if_pos h]
    · rw [if_neg h]
      exact (ih.cons b).trans (List.Perm.swap a b bs)

theorem sortLe_perm (le : ℕ → ℕ → Bool) :
    ∀ l : List ℕ, List.Perm (sortLe le l) l := by
  intro l
  induction l with
  | nil => exact List.Perm.refl _
  | cons b bs ih =>
    have h1 : sortLe le (b :: bs) = insertLe le b (sortLe le bs) := rfl
    rw [h1]
    exact (insertLe_perm le b (sortLe le bs)).trans (ih.cons b)

theorem insertLe_sorted (le : ℕ → ℕ → Bool)
    (htotal : ∀ a b, le a b = true ∨ le b a = true)
    (htrans : ∀ {a b c}, le a b = true → le b c = true → le a c = true)
    (a : ℕ) :
    ∀ l : List ℕ, List.Pairwise (le · · = true) l →
      List.Pairwise (le · · = true) (insertLe le a l) := by
  intro l
  induction l with
  | nil =>
    intro _
    rw [insertLe]
    exact List.pairwise_singleton _ a
  | cons b bs ih =>
    intro hp
    rw [List.pairwise_cons] at hp
    rw [insertLe]
    by_cases h : le a b
    · rw [if_pos h]
      rw [List.pairwise_cons]
      refine ⟨?_, List.pairwise_cons.mpr hp⟩
      intro x hx
      rcases List.mem_cons.mp hx with hx | hx
      · subst hx
        exact h
      · exact htrans h (hp.1 x hx)
    · rw [if_neg h]
      rw [List.pairwise_cons]
      refine ⟨?_, ih hp.2⟩
      intro x hx
      rcases mem_insertLe.mp hx with hx | hx
      · subst hx
        rcases htotal x b with h' | h'
        · exact absurd h' (by simpa using h)
        · exact h'
      · exact hp.1 x hx

theorem sortLe_sorted (le : ℕ → ℕ → Bool)
    (htotal : ∀ a b, le a b = true ∨ le b a = true)
    (htrans : ∀ {a b c}, le a b = true → le b c = true → le a c = true) :
    ∀ l : List ℕ, List.Pairwise (le · · = true) (sortLe le l) := by
  intro l
  induction l with
  | nil =>
    rw [sortLe]
    exact List.Pairwise.nil
  | cons b bs ih =>
    have h1 : sortLe le (b :: bs) = insertLe le b (sortLe le bs) := rfl
    rw [h1]
    exact insertLe_sorted le htotal (fun hab hbc => htrans hab hbc) b _ ih

/-- Well-sortedness of a PreSorted over the given points: the two lists
hold the same set of valid indices, without duplicates, each sorted by
its dimension comparator. -/
structure WS (points : List Point) (ps : PreSorted) : Prop where
  same : ∀ j, j ∈ ps.cur0 ↔ j ∈ ps.cur1
  nd0 : ps.cur0.Nodup
  nd1 : ps.cur1.Nodup
  sorted0 : List.Pairwise (dimLe points 0 · · = true) ps.cur0
  sorted1 : List.Pairwise (dimLe points 1 · · = true) ps.cur1
  valid : ∀ j ∈ ps.cur0, j < points.length

theorem WS.same_dim (points : List Point) (ps : PreSorted)
    (hws : WS points ps) (dim : ℕ) (hdim : dim < 2) {j : ℕ} :
    j ∈ ps.cur dim ↔ j ∈ ps.cur (1 - dim) := by
  interval_cases dim
  · have e1 : ps.cur 0 = ps.cur0 := rfl
    have e2 : ps.cur (1 - 0) = ps.cur1 := rfl
    rw [e1, e2]
    exact hws.same j
  · have e1 : ps.cur 1 = ps.cur1 := rfl
    have e2 : ps.cur (1 - 1) = ps.cur0 := rfl
    rw [e1, e2]
    exact (hws.same j).symm

theorem WS.sorted_dim (points : List Point) (ps : PreSorted)
    (hws : WS points ps) (dim : ℕ) (hdim : dim < 2) :
    List.Pairwise (dimLe points dim · · = true) (ps.cur dim) := by
  interval_cases dim
  · exact hws.sorted0
  · exact hws.sorted1

theorem WS.nodup_dim (points : List Point) (ps : PreSorted)
    (hws : WS points ps) (dim : ℕ) (hdim : dim < 2) :
    (ps.cur dim).Nodup := by
  interval_cases dim
  · exact hws.nd0
  · exact hws.nd1

theorem WS.valid_dim (points : List Point) (ps : PreSorted)
    (hws : WS points ps) (dim : ℕ) (hdim : dim < 2) :
    ∀ j ∈ ps.cur dim, j < points.length := by
  interval_cases dim
  · exact hws.valid
  · intro j hj
    exact hws.valid j ((hws.same j).mpr hj)

theorem preSort_ws (points : List Point) : WS points (preSort points) := by
  have htot0 := dimLe_total points 0
  have htot1 := dimLe_total points 1
  refine
    { same := fun j => ?_
      nd0 := ?_
      nd1 := ?_
      sorted0 := ?_
      sorted1 := ?_
      valid := fun j hj => ?_ }
  · rw [preSort]
    simp only
    rw [mem_sortLe, mem_sortLe]
  · exact ((sortLe_perm _ _).nodup_iff).mpr (List.nodup_range _)
  · exact ((sortLe_perm _ _).nodup_iff).mpr (List.nodup_range _)
  · exact sortLe_sorted _ htot0 (fun hab hbc => dimLe_trans points 0 hab hbc) _
  · exact sortLe_sorted _ htot1 (fun hab hbc => dimLe_trans points 1 hab hbc) _
  · rw [preSort] at hj
    simp only at hj
    rw [mem_sortLe] at hj
    simpa using hj

/-- Positions and values in a list sorted by a dimension comparator:
coordinates are monotone in position. -/
theorem sorted_coord_le (points : List Point) (dim : ℕ) {l : List ℕ}
    (hs : List.Pairwise (dimLe points dim · · = true) l) {p q : ℕ}
    (hpq : p ≤ q) (hq : q < l.length) :
    (points.getD (l.getD p 0) default).coord dim ≤
      (points.getD (l.getD q 0) default).coord dim := by
  rcases Nat.eq_or_lt_of_le hpq with h | h
  · subst h
    exact le_refl _
  · have hp : p < l.length := lt_trans h hq
    rw [List.getD_eq_getElem _ _ hp, List.getD_eq_getElem _ _ hq]
    exact dimLe_coord_le points dim
      ((List.pairwise_iff_getElem.mp hs) p q hp hq h)

theorem medDown_spec (points : List Point) (l : List ℕ) (dim : ℕ) :
    ∀ start,
      (points.getD (l.getD (medDown points l dim start) 0) default).coord dim =
        (points.getD (l.getD start 0) default).coord dim ∧
      (medDown points l dim start = 0 ∨
        (points.getD (l.getD (medDown points l dim start - 1) 0) default).coord dim ≠
          (points.getD (l.getD (medDown points l dim start) 0) default).coord dim) := by
  intro start
  induction start with
  | zero => exact ⟨rfl, Or.inl rfl⟩
  | succ m ih =>
    rw [medDown]
    by_cases h : (points.getD (l.getD m 0) default).coord dim
        = (points.getD (l.getD (m + 1) 0) default).coord dim
    · rw [if_pos h]
      exact ⟨ih.1.trans h, ih.2⟩
    · rw [if_neg h]
      refine ⟨rfl, Or.inr ?_⟩
      simpa using h

theorem mkPreSorted_cur_same {dim : ℕ} (hdim : dim < 2) (a b : List ℕ) :
    (mkPreSorted dim a b).cur dim = a := by
  interval_cases dim
  · rfl
  · rfl

theorem mkPreSorted_cur_other {dim : ℕ} (hdim : dim < 2) (a b : List ℕ) :
    (mkPreSorted dim a b).cur (1 - dim) = b := by
  interval_cases dim
  · rfl
  · rfl

theorem cur_sum (ps : PreSorted) (dim : ℕ) (hdim : dim < 2) :
    ps.cur0.length + ps.cur1.length =
      (ps.cur dim).length + (ps.cur (1 - dim)).length := by
  interval_cases dim
  · rfl
  · have e1 : ps.cur 1 = ps.cur1 := rfl
    have e2 : ps.cur (1 - 1) = ps.cur0 := rfl
    rw [e1, e2]
    omega

/-- Full characterization of split_med on a well-sorted PreSorted with
at least two indices on the split dimension: both halves are
well-sorted; the left half consists exactly of the indices with
coordinate strictly below the pivot; the right half contains only
indices with coordinate at least the pivot; every index lands in the
median, the duplicate bucket, or one of the halves; and both halves
are strictly smaller, which bounds the recursion. -/
theorem splitMed_parts (points : List Point) (ps : PreSorted) (dim : ℕ)
    (hdim : dim < 2) (hws : WS points ps)
    (hlen2 : 2 ≤ (ps.cur dim).length)
    {med : ℕ} {equal : List ℕ} {lps rps : PreSorted}
    (hsm : splitMed points ps dim = (med, equal, lps, rps)) :
    WS points lps ∧ WS points rps ∧
    (∀ j, j ∈ lps.cur dim ↔ (j ∈ ps.cur dim ∧
      (points.getD j default).coord dim <
        (points.getD med default).coord dim)) ∧
    (∀ j ∈ rps.cur dim, ¬((points.getD j default).coord dim <
      (points.getD med default).coord dim)) ∧
    (∀ j ∈ ps.cur dim, (j ∈ lps.cur dim ∨ j = med ∨ j ∈ equal ∨
      j ∈ rps.cur dim)) ∧
    (∀ j ∈ rps.cur dim, j ∈ ps.cur dim) ∧
    (lps.cur0.length + lps.cur1.length < ps.cur0.length + ps.cur1.length) ∧
    (rps.cur0.length + rps.cur1.length < ps.cur0.length + ps.cur1.length) := by
  have hmed9 : med ∈ ps.cur dim := by
    have := splitMed_med_mem points ps dim (by omega)
    rw [hsm] at this
    exact this
  have hequal10 : ∀ j ∈ equal, j ∈ ps.cur dim ∧
      points.getD j default = points.getD med default := by
    intro j hj
    have := splitMed_equal_spec points ps dim (j := j) (by rw [hsm]; exact hj)
    rw [hsm] at this
    exact this
  simp only [splitMed] at hsm
  obtain ⟨h1, h2, h3, h4⟩ :
      (ps.cur dim).getD (medDown points (ps.cur dim) dim ((ps.cur dim).length / 2)) 0 = med ∧
      ((ps.cur dim).drop (medDown points (ps.cur dim) dim ((ps.cur dim).length / 2) + 1)).takeWhile
        (fun n => points.getD n default =
          points.getD ((ps.cur dim).getD (medDown points (ps.cur dim) dim ((ps.cur dim).length / 2)) 0) default) = equal ∧
      mkPreSorted dim
        ((ps.cur dim).take (medDown points (ps.cur dim) dim ((ps.cur dim).length / 2)))
        ((ps.cur (1 - dim)).filter (fun n =>
          (n ≠ (ps.cur dim).getD (medDown points (ps.cur dim) dim ((ps.cur dim).length / 2)) 0 &&
            !(((ps.cur dim).drop (medDown points (ps.cur dim) dim ((ps.cur dim).length / 2) + 1)).takeWhile
              (fun n => points.getD n default =
                points.getD ((ps.cur dim).getD (medDown points (ps.cur dim) dim ((ps.cur dim).length / 2)) 0) default)).contains n) &&
          decide ((points.getD n default).coord dim <
            ((points.getD ((ps.cur dim).getD (medDown points (ps.cur dim) dim ((ps.cur dim).length / 2)) 0) default)).coord dim))) = lps ∧
      mkPreSorted dim
        ((ps.cur dim).drop (medDown points (ps.cur dim) dim ((ps.cur dim).length / 2) +
          (((ps.cur dim).drop (medDown points (ps.cur dim) dim ((ps.cur dim).length / 2) + 1)).takeWhile
            (fun n => points.getD n default =
              points.getD ((ps.cur dim).getD (medDown points (ps.cur dim) dim ((ps.cur dim).length / 2)) 0) default)).length + 1))
        ((ps.cur (1 - dim)).filter (fun n =>
          (n ≠ (ps.cur dim).getD (medDown points (ps.cur dim) dim ((ps.cur dim).length / 2)) 0 &&
            !(((ps.cur dim).drop (medDown points (ps.cur dim) dim ((ps.cur dim).length / 2) + 1)).takeWhile
              (fun n => points.getD n default =
                points.getD ((ps.cur dim).getD (medDown points (ps.cur dim) dim ((ps.cur dim).length / 2)) 0) default)).contains n) &&
          !(decide ((points.getD n default).coord dim <
            ((points.getD ((ps.cur dim).getD (medDown points (ps.cur dim) dim ((ps.cur dim).length / 2)) 0) default)).coord dim)))) = rps := by
    exact ⟨congrArg Prod.fst hsm,
      congrArg (fun x => x.2.1) hsm,
      congrArg (fun x => x.2.2.1) hsm,
      congrArg (fun x => x.2.2.2) hsm⟩
    -- short names for the components
  set l := ps.cur dim with hldef
  set m := medDown points l dim (l.length / 2) with hmdef
  rw [h1] at h2 h3 h4
  rw [h2] at h3 h4
  set other := ps.cur (1 - dim) with hodef
  have hm_le : m ≤ l.length / 2 := medDown_le points l dim _
  have hm_lt : m < l.length := by omega
  have hsortl : List.Pairwise (dimLe points dim · · = true) l :=
    WS.sorted_dim points ps hws dim hdim
  have hstop := (medDown_spec points l dim (l.length / 2)).2
  -- coordinates strictly below the pivot on the left of the median
  have hlt : ∀ j ∈ l.take m,
      (points.getD j default).coord dim <
        (points.getD med default).coord dim := by
    intro j hj
    obtain ⟨q, hq, hjq⟩ := List.mem_iff_getElem.mp hj
    have hqm : q < m := by
      have := List.length_take m l
      omega
    have hql : q < l.length := lt_trans hqm hm_lt
    have hjval : j = l.getD q 0 := by
      rw [List.getD_eq_getElem _ _ hql]
      rw [← hjq]
      exact List.getElem_take _
    have hm0 : m ≠ 0 := by omega
    rcases hstop with h | hne
    · exact absurd h (by rw [← hmdef]; exact hm0)
    · rw [← hmdef] at hne
      have hq1 : (points.getD (l.getD q 0) default).coord dim ≤
          (points.getD (l.getD (m - 1) 0) default).coord dim :=
        sorted_coord_le points dim hsortl (by omega) (by omega)
      have hq2 : (points.getD (l.getD (m - 1) 0) default).coord dim ≤
          (points.getD (l.getD m 0) default).coord dim :=
        sorted_coord_le points dim hsortl (by omega) hm_lt
      rw [hjval, ← h1]
      rcases lt_or_eq_of_le hq2 with h' | h'
      · exact lt_of_le_of_lt hq1 h'
      · exact absurd h' hne
  -- coordinates at least the pivot from the median onward
  have hge : ∀ k, m ≤ k → ∀ j ∈ l.drop k,
      (points.getD med default).coord dim ≤
        (points.getD j default).coord dim := by
    intro k hk j hj
    obtain ⟨q, hq, hjq⟩ := List.mem_iff_getElem.mp hj
    have hql : k + q < l.length := by
      have := List.length_drop k l
      omega
    have hjval : j = l.getD (k + q) 0 := by
      rw [List.getD_eq_getElem _ _ hql]
      rw [← hjq]
      exact List.getElem_drop _
    rw [hjval, ← h1]
    exact sorted_coord_le points dim hsortl (by omega) hql
  have hequalcoord : ∀ j ∈ equal,
      (points.getD j default).coord dim =
        (points.getD med default).coord dim := by
    intro j hj
    rw [(hequal10 j hj).2]
  -- the positional decomposition of the split list
  have hdrop1 : l.drop (m + 1) = equal ++ l.drop (m + equal.length + 1) := by
    have hsplit := List.takeWhile_append_dropWhile
      (fun n => decide (points.getD n default = points.getD med default))
      (l.drop (m + 1))
    rw [h2] at hsplit
    have hdw : (l.drop (m + 1)).dropWhile
        (fun n => decide (points.getD n default = points.getD med default)) =
        l.drop (m + equal.length + 1) := by
      have := congrArg (List.drop equal.length) hsplit
      rw [List.drop_left' (by rfl)] at this
      rw [this, List.drop_drop]
      congr 1
      omega
    rw [← hdw, hsplit]
  have hdecomp : l = l.take m ++ med :: (equal ++ l.drop (m + equal.length + 1)) := by
    have h0 := (List.take_append_drop m l).symm
    have hd : l.drop m = med :: l.drop (m + 1) := by
      rw [List.drop_eq_getElem_cons hm_lt, ← List.getD_eq_getElem l 0 hm_lt, h1]
    rw [hd, hdrop1] at h0
    exact h0
  -- membership decomposition
  have hcases : ∀ j ∈ l, j ∈ l.take m ∨ j = med ∨ j ∈ equal ∨
      j ∈ l.drop (m + equal.length + 1) := by
    intro j hj
    rw [hdecomp] at hj
    rcases List.mem_append.mp hj with h | h
    · exact Or.inl h
    · rcases List.mem_cons.mp h with h | h
      · exact Or.inr (Or.inl h)
      · rcases List.mem_append.mp h with h | h
        · exact Or.inr (Or.inr (Or.inl h))
        · exact Or.inr (Or.inr (Or.inr h))
  -- characterization of the left half on the split dimension
  have hleftchar : ∀ j, j ∈ l.take m ↔ (j ∈ l ∧
      (points.getD j default).coord dim <
        (points.getD med default).coord dim) := by
    intro j
    constructor
    · intro hj
      exact ⟨List.take_subset m l hj, hlt j hj⟩
    · rintro ⟨hj, hcd⟩
      rcases hcases j hj with h | h | h | h
      · exact h
      · subst h
        exact absurd hcd (lt_irrefl _)
      · rw [hequalcoord j h] at hcd
        exact absurd hcd (lt_irrefl _)
      · exact absurd hcd (not_lt.mpr (hge (m + equal.length + 1) (by omega) j h))
  have hrightge : ∀ j ∈ l.drop (m + equal.length + 1),
      ¬((points.getD j default).coord dim <
        (points.getD med default).coord dim) :=
    fun j hj => not_lt.mpr (hge (m + equal.length + 1) (by omega) j hj)
  -- nodup-based disjointness of the decomposition
  have hndl : l.Nodup := WS.nodup_dim points ps hws dim hdim
  have hnd2 : (l.take m ++ med :: (equal ++ l.drop (m + equal.length + 1))).Nodup := by
    rw [← hdecomp]
    exact hndl
  have hmednotin : med ∉ equal ++ l.drop (m + equal.length + 1) := by
    have := (List.nodup_append.mp hnd2).2.1
    rw [List.nodup_cons] at this
    exact this.1
  have hdisj : ∀ j ∈ l.drop (m + equal.length + 1), j ∉ equal := by
    have := (List.nodup_append.mp hnd2).2.1
    rw [List.nodup_cons] at this
    have := List.disjoint_of_nodup_append this.2
    intro j hj hje
    exact this hje hj
  -- membership in the filtered other-dimension lists
  have hcontains : ∀ j : ℕ, (equal.contains j = false) ↔ j ∉ equal := by
    intro j
    rw [show equal.contains j = equal.elem j from rfl, List.elem_eq_mem]
    simp
  have hsamePS : ∀ j : ℕ, j ∈ l ↔ j ∈ other :=
    fun j => WS.same_dim points ps hws dim hdim
  have hkeepL : ∀ j, j ∈ other.filter (fun n =>
      (n ≠ med && !(equal.contains n)) &&
        decide ((points.getD n default).coord dim <
          (points.getD med default).coord dim)) ↔
      (j ∈ other ∧ (points.getD j default).coord dim <
        (points.getD med default).coord dim) := by
    intro j
    rw [List.mem_filter]
    constructor
    · rintro ⟨hmem, hpred⟩
      simp only [Bool.and_eq_true, decide_eq_true_eq] at hpred
      exact ⟨hmem, hpred.2⟩
    · rintro ⟨hmem, hcd⟩
      refine ⟨hmem, ?_⟩
      simp only [Bool.and_eq_true, decide_eq_true_eq, Bool.not_eq_true']
      refine ⟨⟨?_, ?_⟩, hcd⟩
      · simp only [ne_eq, decide_eq_true_eq]
        intro h
        subst h
        exact absurd hcd (lt_irrefl _)
      · rw [hcontains]
        intro h
        rw [hequalcoord j h] at hcd
        exact absurd hcd (lt_irrefl _)
  have hkeepR : ∀ j, j ∈ other.filter (fun n =>
      (n ≠ med && !(equal.contains n)) &&
        !(decide ((points.getD n default).coord dim <
          (points.getD med default).coord dim))) ↔
      (j ∈ other ∧ j ≠ med ∧ j ∉ equal ∧
        ¬((points.getD j default).coord dim <
          (points.getD med default).coord dim)) := by
    intro j
    rw [List.mem_filter]
    simp only [Bool.and_eq_true, decide_eq_true_eq, Bool.not_eq_true',
      ne_eq, hcontains, decide_eq_false_iff_not]
    tauto
  -- set-level agreement of the two halves
  have hsameL : ∀ j, j ∈ l.take m ↔ j ∈ other.filter (fun n =>
      (n ≠ med && !(equal.contains n)) &&
        decide ((points.getD n default).coord dim <
          (points.getD med default).coord dim)) := by
    intro j
    rw [hkeepL, hleftchar, hsamePS]
  have hsameR : ∀ j, j ∈ l.drop (m + equal.length + 1) ↔
      j ∈ other.filter (fun n =>
      (n ≠ med && !(equal.contains n)) &&
        !(decide ((points.getD n default).coord dim <
          (points.getD med default).coord dim))) := by
    intro j
    rw [hkeepR]
    constructor
    · intro hj
      refine ⟨(hsamePS j).mp (List.drop_subset _ l hj), ?_, hdisj j hj, hrightge j hj⟩
      intro h
      subst h
      exact hmednotin (List.mem_append.mpr (Or.inr hj))
    · rintro ⟨hmem, hne, hnoteq, hcd⟩
      rcases hcases j ((hsamePS j).mpr hmem) with h | h | h | h
      · exact absurd (hlt j h) hcd
      · exact absurd h hne
      · exact absurd h hnoteq
      · exact h
  -- nodup, sortedness and validity of the pieces
  have hndother : other.Nodup := by
    have h12 : 1 - dim < 2 := by omega
    exact WS.nodup_dim points ps hws (1 - dim) h12
  have hsortother : List.Pairwise (dimLe points (1 - dim) · · = true) other := by
    have h12 : 1 - dim < 2 := by omega
    exact WS.sorted_dim points ps hws (1 - dim) h12
  have hvalidl : ∀ j ∈ l, j < points.length :=
    WS.valid_dim points ps hws dim hdim
  have hvalidother : ∀ j ∈ other, j < points.length := by
    have h12 : 1 - dim < 2 := by omega
    exact WS.valid_dim points ps hws (1 - dim) h12
  have hndLD : (l.take m).Nodup := (List.take_sublist m l).nodup hndl
  have hndRD : (l.drop (m + equal.length + 1)).Nodup :=
    (List.drop_sublist _ l).nodup hndl
  have hsortLD : List.Pairwise (dimLe points dim · · = true) (l.take m) :=
    List.Pairwise.sublist (List.take_sublist m l) hsortl
  have hsortRD : List.Pairwise (dimLe points dim · · = true)
      (l.drop (m + equal.length + 1)) :=
    List.Pairwise.sublist (List.drop_sublist _ l) hsortl
  -- assembling the well-sortedness of the two halves
  have hwsL : WS points lps := by
    rw [← h3]
    interval_cases dim
    · exact
        { same := hsameL
          nd0 := hndLD
          nd1 := (List.filter_sublist other).nodup hndother
          sorted0 := hsortLD
          sorted1 := List.Pairwise.sublist (List.filter_sublist other) hsortother
          valid := fun j hj => hvalidl j (List.take_subset m l hj) }
    · exact
        { same := fun j => (hsameL j).symm
          nd0 := (List.filter_sublist other).nodup hndother
          nd1 := hndLD
          sorted0 := List.Pairwise.sublist (List.filter_sublist other) hsortother
          sorted1 := hsortLD
          valid := fun j hj => hvalidother j (List.mem_of_mem_filter hj) }
  have hwsR : WS points rps := by
    rw [← h4]
    interval_cases dim
    · exact
        { same := hsameR
          nd0 := hndRD
          nd1 := (List.filter_sublist other).nodup hndother
          sorted0 := hsortRD
          sorted1 := List.Pairwise.sublist (List.filter_sublist other) hsortother
          valid := fun j hj => hvalidl j (List.drop_subset _ l hj) }
    · exact
        { same := fun j => (hsameR j).symm
          nd0 := (List.filter_sublist other).nodup hndother
          nd1 := hndRD
          sorted0 := List.Pairwise.sublist (List.filter_sublist other) hsortother
          sorted1 := hsortRD
          valid := fun j hj => hvalidother j (List.mem_of_mem_filter hj) }
  -- the projections of the halves on the split dimension
  have hcurL : lps.cur dim = l.take m := by
    rw [← h3]
    exact mkPreSorted_cur_same hdim _ _
  have hcurR : rps.cur dim = l.drop (m + equal.length + 1) := by
    rw [← h4]
    exact mkPreSorted_cur_same hdim _ _
  have hcurLO : lps.cur (1 - dim) = other.filter (fun n =>
      (n ≠ med && !(equal.contains n)) &&
        decide ((points.getD n default).coord dim <
          (points.getD med default).coord dim)) := by
    rw [← h3]
    exact mkPreSorted_cur_other hdim _ _
  have hcurRO : rps.cur (1 - dim) = other.filter (fun n =>
      (n ≠ med && !(equal.contains n)) &&
        !(decide ((points.getD n default).coord dim <
          (points.getD med default).coord dim))) := by
    rw [← h4]
    exact mkPreSorted_cur_other hdim _ _
  -- length bounds
  have hsum : l.length + other.length = ps.cur0.length + ps.cur1.length := by
    rw [hldef, hodef]
    interval_cases dim
    · rfl
    · have e1 : ps.cur 1 = ps.cur1 := rfl
      have e2 : ps.cur (1 - 1) = ps.cur0 := rfl
      rw [e1, e2]
      omega
  have hlenL : lps.cur0.length + lps.cur1.length <
      ps.cur0.length + ps.cur1.length := by
    have hLD : (l.take m).length = m := by
      rw [List.length_take]
      omega
    have hLO := List.length_filter_le (fun n =>
      (n ≠ med && !(equal.contains n)) &&
        decide ((points.getD n default).coord dim <
          (points.getD med default).coord dim)) other
    have hsplit : lps.cur0.length + lps.cur1.length =
        (l.take m).length + (other.filter (fun n =>
          (n ≠ med && !(equal.contains n)) &&
            decide ((points.getD n default).coord dim <
              (points.getD med default).coord dim))).length := by
      rw [cur_sum lps dim hdim, hcurL, hcurLO]
    omega
  have hlenR : rps.cur0.length + rps.cur1.length <
      ps.cur0.length + ps.cur1.length := by
    have hRD : (l.drop (m + equal.length + 1)).length ≤ l.length - 1 := by
      rw [List.length_drop]
      omega
    have hRO := List.length_filter_le (fun n =>
      (n ≠ med && !(equal.contains n)) &&
        !(decide ((points.getD n default).coord dim <
          (points.getD med default).coord dim))) other
    have hsplit : rps.cur0.length + rps.cur1.length =
        (l.drop (m + equal.length + 1)).length + (other.filter (fun n =>
          (n ≠ med && !(equal.contains n)) &&
            !(decide ((points.getD n default).coord dim <
              (points.getD med default).coord dim)))).length := by
      rw [cur_sum rps dim hdim, hcurR, hcurRO]
    omega
  refine ⟨hwsL, hwsR, ?_, ?_, ?_, ?_, hlenL, hlenR⟩
  · intro j
    rw [hcurL]
    exact hleftchar j
  · intro j hj
    rw [hcurR] at hj
    exact hrightge j hj
  · intro j hj
    rcases hcases j hj with h | h | h | h
    · exact Or.inl (by rw [hcurL]; exact h)
    · exact Or.inr (Or.inl h)
    · exact Or.inr (Or.inr (Or.inl h))
    · exact Or.inr (Or.inr (Or.inr (by rw [hcurR]; exact h)))
  · intro j hj
    rw [hcurR] at hj
    exact List.drop_subset _ l hj

/-- Membership of a point index in a tree (as the node point or inside
a duplicate bucket). -/
def idxIn : KDT → ℕ → Prop
  | .nil, _ => False
  | .node pid eqIds _ l r, j => j = pid ∨ j ∈ eqIds ∨ idxIn l j ∨ idxIn r j

/-- Partition discipline of a tree: on the split dimension of each
node, every index in the left subtree has coordinate strictly below
the node point, and every index in the right subtree does not. -/
def TreeParted (points : List Point) : KDT → Prop
  | .nil => True
  | .node pid _ split l r =>
      (∀ j, idxIn l j → (points.getD j default).coord split <
        (points.getD pid default).coord split) ∧
      (∀ j, idxIn r j → ¬((points.getD j default).coord split <
        (points.getD pid default).coord split)) ∧
      TreeParted points l ∧ TreeParted points r

/-- The built tree holds exactly the indices of its input lists and
obeys the partition discipline. -/
theorem buildTree_parted (points : List Point) :
    ∀ fuel depth ps, WS points ps →
      ps.cur0.length + ps.cur1.length < fuel →
      (∀ j, (j ∈ ps.cur (depth % 2) ↔
        idxIn (buildTree points fuel depth ps) j)) ∧
      TreeParted points (buildTree points fuel depth ps) := by
  intro fuel
  induction fuel with
  | zero =>
    intro depth ps hws hfuel
    omega
  | succ fuel ih =>
    intro depth ps hws hfuel
    have hdim : depth % 2 < 2 := Nat.mod_lt _ (by omega)
    rw [buildTree]
    split
    · rename_i heq
      rw [heq]
      simp [idxIn, TreeParted]
    · rename_i i heq
      rw [heq]
      simp [idxIn, TreeParted]
    · rename_i a b rest heq
      have hlen2 : 2 ≤ (ps.cur (depth % 2)).length := by
        rw [heq]
        simp
      rcases hsm : splitMed points ps (depth % 2) with ⟨med, equal, lps, rps⟩
      have hmedmem : med ∈ ps.cur (depth % 2) := by
        have := splitMed_med_mem points ps (depth % 2) (by omega)
        rw [hsm] at this
        exact this
      have hequalmem : ∀ j ∈ equal, j ∈ ps.cur (depth % 2) := by
        intro j hj
        have := splitMed_equal_spec points ps (depth % 2) (j := j)
          (by rw [hsm]; exact hj)
        rw [hsm] at this
        exact this.1
      obtain ⟨hwsL, hwsR, hchar, hge, hcase, hsubR, hlenL, hlenR⟩ :=
        splitMed_parts points ps (depth % 2) hdim hws hlen2 hsm
      have hmod : (depth + 1) % 2 = 1 - depth % 2 := by omega
      have ihL := ih (depth + 1) lps hwsL (by omega)
      have ihR := ih (depth + 1) rps hwsR (by omega)
      have hLiff : ∀ j, j ∈ lps.cur (depth % 2) ↔
          idxIn (buildTree points fuel (depth + 1) lps) j := by
        intro j
        rw [← ihL.1 j, hmod]
        exact WS.same_dim points lps hwsL (depth % 2) hdim
      have hRiff : ∀ j, j ∈ rps.cur (depth % 2) ↔
          idxIn (buildTree points fuel (depth + 1) rps) j := by
        intro j
        rw [← ihR.1 j, hmod]
        exact WS.same_dim points rps hwsR (depth % 2) hdim
      simp only [hsm]
      constructor
      · intro j
        rw [idxIn]
        constructor
        · intro hj
          rcases hcase j hj with h | h | h | h
          · exact Or.inr (Or.inr (Or.inl ((hLiff j).mp h)))
          · exact Or.inl h
          · exact Or.inr (Or.inl h)
          · exact Or.inr (Or.inr (Or.inr ((hRiff j).mp h)))
        · rintro (h | h | h | h)
          · exact h ▸ hmedmem
          · exact hequalmem j h
          · exact (hchar j).mp ((hLiff j).mpr h) |>.1
          · exact hsubR j ((hRiff j).mpr h)
      · rw [TreeParted]
        refine ⟨?_, ?_, ihL.2, ihR.2⟩
        · intro j hj
          exact ((hchar j).mp ((hLiff j).mpr hj)).2
        · intro j hj
          exact hge j ((hRiff j).mpr hj)

/-- The fast squared distance of a point to itself is zero. -/
theorem sqDist_self (p : Point) : Point.sqDist p p = 0 := by
  simp [Point.sqDist, distanceSphericalFast]

/-- The accumulator only grows during the recursive range search. -/
theorem inRangeRec_mono (points : List Point) (pt : Point) (r : ℚ) :
    ∀ t acc a, a ∈ acc → a ∈ inRangeRec points pt r t acc := by
  intro t
  induction t with
  | nil =>
    intro acc a ha
    rw [inRangeRec]
    exact ha
  | node pid eqIds split l rgt ihl ihr =>
    intro acc a ha
    simp only [inRangeRec]
    by_cases hdiff :
        pt.coord split - (points.getD pid default).coord split < 0
    · rw [if_pos hdiff]
      by_cases hdist :
          (mkPt split (pt.coord split)
              ((pt.coord (1 - split) + (points.getD pid default).coord (1 - split)) / 2)).sqDist
            (mkPt split ((points.getD pid default).coord split)
              ((pt.coord (1 - split) + (points.getD pid default).coord (1 - split)) / 2)) ≤ r * r
      · rw [if_pos hdist]
        apply ihr
        by_cases htest : (points.getD pid default).sqDist pt < r * r
        · rw [if_pos htest]
          exact List.mem_append.mpr (Or.inl (List.mem_append.mpr (Or.inl (ihl acc a ha))))
        · rw [if_neg htest]
          exact ihl acc a ha
      · rw [if_neg hdist]
        exact ihl acc a ha
    · rw [if_neg hdiff]
      by_cases hdist :
          (mkPt split (pt.coord split)
              ((pt.coord (1 - split) + (points.getD pid default).coord (1 - split)) / 2)).sqDist
            (mkPt split ((points.getD pid default).coord split)
              ((pt.coord (1 - split) + (points.getD pid default).coord (1 - split)) / 2)) ≤ r * r
      · rw [if_pos hdist]
        apply ihl
        by_cases htest : (points.getD pid default).sqDist pt < r * r
        · rw [if_pos htest]
          exact List.mem_append.mpr (Or.inl (List.mem_append.mpr (Or.inl (ihr acc a ha))))
        · rw [if_neg htest]
          exact ihr acc a ha
      · rw [if_neg hdist]
        exact ihr acc a ha

/-- Completeness of the range search for the query point itself: if the
query point occurs in the tree at index i and the radius is positive,
the search emits i.  The chain of nodes leading to i is always on the
near side of the traversal, which is searched unconditionally. -/
theorem inRangeRec_complete (points : List Point) (r : ℚ) (hr : 0 < r) :
    ∀ t, TreeSound points t → TreeParted points t →
      ∀ acc i, idxIn t i →
        i ∈ inRangeRec points (points.getD i default) r t acc := by
  intro t
  induction t with
  | nil =>
    intro _ _ acc i hidx
    cases hidx
  | node pid eqIds split l rgt ihl ihr =>
    intro hs hp acc i hidx
    obtain ⟨hpid, heqb, hsl, hsr⟩ := hs
    obtain ⟨hplt, hpge, hpl, hpr⟩ := hp
    simp only [inRangeRec]
    rcases hidx with hieq | hieq | hidx | hidx
    · -- i is the node point
      subst hieq
      have hdiff : ¬((points.getD i default).coord split -
          (points.getD i default).coord split < 0) := by
        simp
      rw [if_neg hdiff]
      have hp1p2 : (mkPt split ((points.getD i default).coord split)
            (((points.getD i default).coord (1 - split) +
              (points.getD i default).coord (1 - split)) / 2)).sqDist
          (mkPt split ((points.getD i default).coord split)
            (((points.getD i default).coord (1 - split) +
              (points.getD i default).coord (1 - split)) / 2)) = 0 :=
        sqDist_self _
      rw [if_pos (by rw [hp1p2]; exact mul_self_nonneg r)]
      rw [if_pos (by rw [sqDist_self]; exact mul_pos hr hr)]
      apply inRangeRec_mono
      exact List.mem_append.mpr (Or.inl (List.mem_append.mpr (Or.inr (by simp))))
    · -- i is in the duplicate bucket
      have heqpt : points.getD pid default = points.getD i default :=
        (heqb i hieq).2.symm
      rw [heqpt]
      have hdiff : ¬((points.getD i default).coord split -
          (points.getD i default).coord split < 0) := by
        simp
      rw [if_neg hdiff]
      have hp1p2 : (mkPt split ((points.getD i default).coord split)
            (((points.getD i default).coord (1 - split) +
              (points.getD i default).coord (1 - split)) / 2)).sqDist
          (mkPt split ((points.getD i default).coord split)
            (((points.getD i default).coord (1 - split) +
              (points.getD i default).coord (1 - split)) / 2)) = 0 :=
        sqDist_self _
      rw [if_pos (by rw [hp1p2]; exact mul_self_nonneg r)]
      rw [if_pos (by rw [sqDist_self]; exact mul_pos hr hr)]
      apply inRangeRec_mono
      exact List.mem_append.mpr (Or.inr hieq)
    · -- i is in the left subtree
      have hlt := hplt i hidx
      have hdiff : (points.getD i default).coord split -
          (points.getD pid default).coord split < 0 := sub_neg.mpr hlt
      rw [if_pos hdiff]
      by_cases hdist :
          (mkPt split ((points.getD i default).coord split)
              (((points.getD i default).coord (1 - split) +
                (points.getD pid default).coord (1 - split)) / 2)).sqDist
            (mkPt split ((points.getD pid default).coord split)
              (((points.getD i default).coord (1 - split) +
                (points.getD pid default).coord (1 - split)) / 2)) ≤ r * r
      · rw [if_pos hdist]
        apply inRangeRec_mono
        by_cases htest : (points.getD pid default).sqDist (points.getD i default) < r * r
        · rw [if_pos htest]
          exact List.mem_append.mpr (Or.inl (List.mem_append.mpr
            (Or.inl (ihl hsl hpl acc i hidx))))
        · rw [if_neg htest]
          exact ihl hsl hpl acc i hidx
      · rw [if_neg hdist]
        exact ihl hsl hpl acc i hidx
    · -- i is in the right subtree
      have hge := hpge i hidx
      have hdiff : ¬((points.getD i default).coord split -
          (points.getD pid default).coord split < 0) := by
        rw [sub_neg]
        exact hge
      rw [if_neg hdiff]
      by_cases hdist :
          (mkPt split ((points.getD i default).coord split)
              (((points.getD i default).coord (1 - split) +
                (points.getD pid default).coord (1 - split)) / 2)).sqDist
            (mkPt split ((points.getD pid default).coord split)
              (((points.getD i default).coord (1 - split) +
                (points.getD pid default).coord (1 - split)) / 2)) ≤ r * r
      · rw [if_pos hdist]
        apply inRangeRec_mono
        by_cases htest : (points.getD pid default).sqDist (points.getD i default) < r * r
        · rw [if_pos htest]
          exact List.mem_append.mpr (Or.inl (List.mem_append.mpr
            (Or.inl (ihr hsr hpr acc i hidx))))
        · rw [if_neg htest]
          exact ihr hsr hpr acc i hidx
      · rw [if_neg hdist]
        exact ihr hsr hpr acc i hidx

/-- C2, amended: for every point list containing a point at index i and
every radius r > 0, the K-D tree range query centered at that point and
started from an empty accumulator contains i.  At r = 0 the claim
fails because the membership test is strict (see the counterexample). -/
theorem c2_self_inclusion_of_pos_radius (points : List Point) (i : ℕ)
    (r : ℚ) (hi : i < points.length) (hr : 0 < r) :
    i ∈ inRange points (newKdTree points) (points.getD i default) r [] := by
  have hne : ¬(points.isEmpty = true) := by
    rw [List.isEmpty_iff]
    intro h
    rw [h] at hi
    simp at hi
  have hlen0 : (preSort points).cur0.length = points.length := by
    rw [preSort]
    simp only
    rw [(sortLe_perm _ _).length_eq, List.length_range]
  have hlen1 : (preSort points).cur1.length = points.length := by
    rw [preSort]
    simp only
    rw [(sortLe_perm _ _).length_eq, List.length_range]
  obtain ⟨hiff, hparted⟩ := buildTree_parted points (2 * points.length + 1) 0
    (preSort points) (preSort_ws points) (by omega)
  have hsound : TreeSound points (buildTree points (2 * points.length + 1) 0
      (preSort points)) := by
    have := newKdTree_sound points
    rw [newKdTree, if_neg hne] at this
    exact this
  have hmem : i ∈ (preSort points).cur (0 % 2) := by
    have e : (preSort points).cur (0 % 2) = (preSort points).cur0 := rfl
    rw [e, preSort]
    simp only
    rw [mem_sortLe]
    simpa using hi
  rw [inRange, if_neg (not_lt.mpr (le_of_lt hr)), newKdTree, if_neg hne]
  exact inRangeRec_complete points r hr _ hsound hparted [] i ((hiff i).mp hmem)

/-- Witness for the amended C2 at a concrete input. -/
theorem c2_self_inclusion_of_pos_radius_witness :
    0 < [(⟨0, 0⟩ : Point)].length ∧ (0 : ℚ) < 1 ∧
      0 ∈ inRange [(⟨0, 0⟩ : Point)] (newKdTree [⟨0, 0⟩])
        ([(⟨0, 0⟩ : Point)].getD 0 default) 1 [] :=
  ⟨by simp, by norm_num,
   c2_self_inclusion_of_pos_radius [⟨0, 0⟩] 0 1 (by simp) (by norm_num)⟩
